import Mathlib

/-!
Shallow embedding of the LinkUp availability core:

* `src/app/api/groups/[groupId]/leave/route.ts` — `timeToMinutes`,
  `formatTime`, `mergeBusyIntervals`, `parseTimeParam` and the classification
  logic of the `GET` handler.
* `src/lib/calendar/parse-ics.ts` — `extractWeekdays`, `parseIcsToBusyBlocks`
  and the America/Chicago wall-clock derivation.

JavaScript numbers are modelled exactly: every numeric value the code
manipulates is a rational, represented by an explicit numerator/denominator
pair (`JsQ`) so that concrete runs reduce inside the kernel.  Order and
equality of `JsQ` values are defined through their exact values in `ℚ`.
All arithmetic the code performs on time values (`*60`, `+`, `/60`,
comparisons, `%`) is exact on the magnitudes involved; IEEE-754 rounding and
overflow to infinity are outside the model.
-/

/-- An exact rational, kept unnormalized: the value is `num / den`
(`den = 0` never arises from the embedded operations). -/
structure JsQ where
  num : ℤ
  den : ℕ
deriving DecidableEq, Repr

namespace JsQ

/-- The exact value of a represented number. -/
def val (q : JsQ) : ℚ := (q.num : ℚ) / (q.den : ℚ)

def add (a b : JsQ) : JsQ := ⟨a.num * (b.den : ℤ) + b.num * (a.den : ℤ), a.den * b.den⟩

def mul (a b : JsQ) : JsQ := ⟨a.num * b.num, a.den * b.den⟩

def neg (a : JsQ) : JsQ := ⟨-a.num, a.den⟩

def sub (a b : JsQ) : JsQ := a.add b.neg

/-- Division by a positive integer constant (the only divisions the embedded
code performs: `/60`, `/10^k`, `/12`). -/
def divNat (a : JsQ) (k : ℕ) : JsQ := ⟨a.num, a.den * k⟩

def ofInt (n : ℤ) : JsQ := ⟨n, 1⟩

instance (n : ℕ) : OfNat JsQ n := ⟨⟨(n : ℤ), 1⟩⟩

instance : Add JsQ := ⟨add⟩

instance : Mul JsQ := ⟨mul⟩

instance : Neg JsQ := ⟨neg⟩

instance : Sub JsQ := ⟨sub⟩

instance : LE JsQ := ⟨fun a b => a.val ≤ b.val⟩

instance : LT JsQ := ⟨fun a b => a.val < b.val⟩

/-- Integer-arithmetic decision procedure for `≤` on values (kernel-reducible;
a zero denominator denotes the value `0`, matching `ℚ`'s division by zero). -/
def leB (a b : JsQ) : Bool :=
  if a.den = 0 then
    if b.den = 0 then true else decide (0 ≤ b.num)
  else
    if b.den = 0 then decide (a.num ≤ 0)
    else decide (a.num * (b.den : ℤ) ≤ b.num * (a.den : ℤ))

/-- Integer-arithmetic decision procedure for `<` on values. -/
def ltB (a b : JsQ) : Bool :=
  if a.den = 0 then
    if b.den = 0 then false else decide (0 < b.num)
  else
    if b.den = 0 then decide (a.num < 0)
    else decide (a.num * (b.den : ℤ) < b.num * (a.den : ℤ))

instance : DecidableRel (α := JsQ) (· ≤ ·) := fun a b =>
  decidable_of_iff (leB a b = true) (by
    show leB a b = true ↔ a.val ≤ b.val
    unfold leB val
    by_cases ha : a.den = 0 <;> by_cases hb : b.den = 0
    · simp [ha, hb]
    · have hbpos : (0 : ℚ) < (b.den : ℚ) := by
        exact_mod_cast Nat.pos_of_ne_zero hb
      rw [if_pos ha, if_neg hb, ha]
      simp only [Nat.cast_zero, div_zero, decide_eq_true_eq]
      rw [le_div_iff₀ hbpos, zero_mul]
      exact_mod_cast Iff.rfl
    · have hapos : (0 : ℚ) < (a.den : ℚ) := by
        exact_mod_cast Nat.pos_of_ne_zero ha
      rw [if_neg ha, if_pos hb, hb]
      simp only [Nat.cast_zero, div_zero, decide_eq_true_eq]
      rw [div_le_iff₀ hapos, zero_mul]
      exact_mod_cast Iff.rfl
    · have hapos : (0 : ℚ) < (a.den : ℚ) := by
        exact_mod_cast Nat.pos_of_ne_zero ha
      have hbpos : (0 : ℚ) < (b.den : ℚ) := by
        exact_mod_cast Nat.pos_of_ne_zero hb
      rw [if_neg ha, if_neg hb]
      simp only [decide_eq_true_eq]
      rw [div_le_div_iff₀ hapos hbpos]
      exact_mod_cast Iff.rfl)

instance : DecidableRel (α := JsQ) (· < ·) := fun a b =>
  decidable_of_iff (ltB a b = true) (by
    show ltB a b = true ↔ a.val < b.val
    unfold ltB val
    by_cases ha : a.den = 0 <;> by_cases hb : b.den = 0
    · simp [ha, hb]
    · have hbpos : (0 : ℚ) < (b.den : ℚ) := by
        exact_mod_cast Nat.pos_of_ne_zero hb
      rw [if_pos ha, if_neg hb, ha]
      simp only [Nat.cast_zero, div_zero, decide_eq_true_eq]
      rw [lt_div_iff₀ hbpos, zero_mul]
      exact_mod_cast Iff.rfl
    · have hapos : (0 : ℚ) < (a.den : ℚ) := by
        exact_mod_cast Nat.pos_of_ne_zero ha
      rw [if_neg ha, if_pos hb, hb]
      simp only [Nat.cast_zero, div_zero, decide_eq_true_eq]
      rw [div_lt_iff₀ hapos, zero_mul]
      exact_mod_cast Iff.rfl
    · have hapos : (0 : ℚ) < (a.den : ℚ) := by
        exact_mod_cast Nat.pos_of_ne_zero ha
      have hbpos : (0 : ℚ) < (b.den : ℚ) := by
        exact_mod_cast Nat.pos_of_ne_zero hb
      rw [if_neg ha, if_neg hb]
      simp only [decide_eq_true_eq]
      rw [div_lt_div_iff₀ hapos hbpos]
      exact_mod_cast Iff.rfl)

instance : Preorder JsQ where
  le_refl a := le_refl a.val
  le_trans _ _ _ h1 h2 := le_trans (α := ℚ) h1 h2
  lt_iff_le_not_le _ _ := lt_iff_le_not_le (α := ℚ)

/-- Truncation toward zero of the value (`Math.trunc`-style, as the
JavaScript `%` operator uses). -/
def trunc (q : JsQ) : ℤ := Int.tdiv q.num (q.den : ℤ)

end JsQ

/-- Result of JavaScript `Number(string)` coercion: `NaN`, `±Infinity`, or a
finite value (modelled exactly). -/
inductive JsNum where
  | nan : JsNum
  | inf : JsNum
  | ninf : JsNum
  | fin : JsQ → JsNum
deriving DecidableEq, Repr

/-- JavaScript `StrWhiteSpaceChar` (the characters trimmed by `Number(string)`
and `String.prototype.trim`), restricted to the code points that can actually
appear here. -/
def isJsWhitespace (c : Char) : Bool :=
  c = ' ' || c = '\t' || c = '\n' || c = '\r' ||
  c = '\x0b' || c = '\x0c' || c = Char.ofNat 160

/-- Trim JS whitespace from both ends of a character list. -/
def jsTrimChars (cs : List Char) : List Char :=
  ((cs.dropWhile isJsWhitespace).reverse.dropWhile isJsWhitespace).reverse

/-- JavaScript `String.prototype.trim`. -/
def jsTrim (s : String) : String :=
  ⟨jsTrimChars s.data⟩

/-- `String.prototype.split(":")` (single-character separator, no limit),
written with structural recursion so concrete runs reduce in the kernel;
behaviourally identical to splitting on `":"`. -/
def splitColonAux : List Char → List Char → List String
  | [], cur => [⟨cur.reverse⟩]
  | c :: rest, cur =>
    if c = ':' then ⟨cur.reverse⟩ :: splitColonAux rest []
    else splitColonAux rest (c :: cur)

def splitColon (s : String) : List String :=
  splitColonAux s.data []

def digitVal (c : Char) : Option ℕ :=
  if '0' ≤ c ∧ c ≤ '9' then some (c.toNat - 48) else none

def isDigitChar (c : Char) : Bool :=
  decide ('0' ≤ c ∧ c ≤ '9')

/-- Numeric value of a digit string (most significant first). -/
def digitsToNat (cs : List Char) : ℕ :=
  cs.foldl (fun acc c => acc * 10 + ((digitVal c).getD 0)) 0

def hexVal (c : Char) : Option ℕ :=
  if '0' ≤ c ∧ c ≤ '9' then some (c.toNat - 48)
  else if 'a' ≤ c ∧ c ≤ 'f' then some (c.toNat - 87)
  else if 'A' ≤ c ∧ c ≤ 'F' then some (c.toNat - 55)
  else none

def digitsToNatBase (base : ℕ) (cs : List Char) : ℕ :=
  cs.foldl (fun acc c => acc * base + ((hexVal c).getD 0)) 0

/-- Parse the exponent part `(e|E) [+-]? digits` of a JS decimal literal,
returning the signed exponent. `none` when malformed. -/
def parseExponent (cs : List Char) : Option ℤ :=
  match cs with
  | [] => some 0
  | e :: rest =>
    if e = 'e' ∨ e = 'E' then
      let (neg, ds) :=
        match rest with
        | '+' :: r => (false, r)
        | '-' :: r => (true, r)
        | r => (false, r)
      if ds ≠ [] ∧ ds.all isDigitChar then
        some (if neg then -(digitsToNat ds : ℤ) else (digitsToNat ds : ℤ))
      else none
    else none

/-- Scale a value by `10^ex`. -/
def applyExponent (q : JsQ) (ex : ℤ) : JsQ :=
  if 0 ≤ ex then q * JsQ.ofInt ((10 : ℤ) ^ ex.toNat)
  else q.divNat (10 ^ (-ex).toNat)

/-- Parse a JS `StrUnsignedDecimalLiteral` other than `Infinity`:
`digits [. digits] [exp]` or `. digits [exp]`. Yields the exact value. -/
def parseDecimalLit (cs : List Char) : Option JsQ :=
  let intPart := cs.takeWhile isDigitChar
  let rest := cs.drop intPart.length
  match rest with
  | '.' :: rest2 =>
    let fracPart := rest2.takeWhile isDigitChar
    let rest3 := rest2.drop fracPart.length
    if intPart = [] ∧ fracPart = [] then none
    else
      match parseExponent rest3 with
      | some ex =>
        some (applyExponent
          (JsQ.ofInt (digitsToNat intPart) +
            (JsQ.ofInt (digitsToNat fracPart)).divNat (10 ^ fracPart.length)) ex)
      | none => none
  | _ =>
    if intPart = [] then none
    else
      match parseExponent rest with
      | some ex => some (applyExponent (JsQ.ofInt (digitsToNat intPart)) ex)
      | none => none

/-- Parse a signed JS decimal literal body (after optional sign removal):
either `Infinity` or an unsigned decimal literal. -/
def parseSignedBody (neg : Bool) (cs : List Char) : JsNum :=
  if cs = "Infinity".data then
    if neg then .ninf else .inf
  else
    match parseDecimalLit cs with
    | some q => .fin (if neg then -q else q)
    | none => .nan

/-- JavaScript `Number(string)` (ECMAScript `StringToNumber`): trims
whitespace, the empty string is `0`, then a decimal literal with optional
sign, `Infinity`, or an unsigned `0x`/`0o`/`0b` integer literal; anything
else is `NaN`. -/
def jsNumber (s : String) : JsNum :=
  match jsTrimChars s.data with
  | [] => .fin 0
  | '+' :: rest => parseSignedBody false rest
  | '-' :: rest => parseSignedBody true rest
  | '0' :: x :: rest =>
    if x = 'x' ∨ x = 'X' then
      if rest ≠ [] ∧ rest.all (fun c => (hexVal c).isSome) then
        .fin (JsQ.ofInt (digitsToNatBase 16 rest))
      else .nan
    else if x = 'o' ∨ x = 'O' then
      if rest ≠ [] ∧ rest.all (fun c => decide ('0' ≤ c ∧ c ≤ '7')) then
        .fin (JsQ.ofInt (digitsToNatBase 8 rest))
      else .nan
    else if x = 'b' ∨ x = 'B' then
      if rest ≠ [] ∧ rest.all (fun c => c = '0' ∨ c = '1') then
        .fin (JsQ.ofInt (digitsToNatBase 2 rest))
      else .nan
    else parseSignedBody false ('0' :: x :: rest)
  | cs => parseSignedBody false cs

/-- `Number.isFinite(x) ? x : 0` on a coerced component. A missing component
(`undefined` after destructuring) is represented by `none`. -/
def safeComponent (x : Option JsNum) : JsQ :=
  match x with
  | some (.fin q) => q
  | _ => 0

/-- `timeToMinutes` from `route.ts`:
`timeValue.split(":").map(Number)` destructured into hours/minutes/seconds,
each defaulted to `0` unless finite, combined as `h*60 + m + s/60`. -/
def timeToMinutes (timeValue : String) : JsQ :=
  let parts := (splitColon timeValue).map jsNumber
  safeComponent (parts.get? 0) * 60 + safeComponent (parts.get? 1) +
    (safeComponent (parts.get? 2)).divNat 60

/-- `Number.isFinite` applied to a `timeToMinutes` result. In the exact
model every such value is finite: each component is coerced to a finite
number before the arithmetic, and exact arithmetic cannot overflow
(IEEE-754 overflow for inputs beyond ~1.8e308 is outside the model). -/
def numberIsFinite (_ : JsQ) : Bool := true

/-- JavaScript remainder `x % y` for a positive integer constant `y`
(`x - y * trunc(x / y)`; the code only computes `% 12`). -/
def jsRem (x : JsQ) (y : ℕ) : JsQ :=
  x - (OfNat.ofNat y : JsQ) * JsQ.ofInt (JsQ.trunc (x.divNat y))

def natToDigitsAux : ℕ → ℕ → List Char
  | 0, _ => []
  | fuel + 1, n =>
    if n < 10 then [Char.ofNat (48 + n)]
    else natToDigitsAux fuel (n / 10) ++ [Char.ofNat (48 + n % 10)]

/-- Decimal rendering of a natural number (no sign). -/
def natToString (n : ℕ) : String :=
  ⟨natToDigitsAux (n + 1) n⟩

/-- JavaScript `String.prototype.padStart(n, c)`. -/
def padStart (s : String) (n : ℕ) (c : Char) : String :=
  ⟨List.replicate (n - s.data.length) c ++ s.data⟩

/-- Smallest `k` below the fuel bound such that `d ∣ n * 10^k`, if any: the
number of fraction digits of the finite decimal expansion of `n / d`. -/
def decScaleAux (n d : ℕ) : ℕ → ℕ → Option ℕ
  | 0, _ => none
  | fuel + 1, k => if n * 10 ^ k % d = 0 then some k else decScaleAux n d fuel (k + 1)

/-- JavaScript `Number.prototype.toString` on the exact model.  Every value
reaching it here comes from decimal digit strings, so it has a finite
decimal expansion, which is what JS prints (the exponential notation JS uses
beyond `1e21` and binary-double shortest-round-trip subtleties are outside
the model; the fallback branch for infinite expansions is unreachable from
the embedded code paths). -/
def jsNumToString (q : JsQ) : String :=
  let sign := if q.num < 0 then "-" else ""
  let n := q.num.natAbs
  match decScaleAux n q.den 64 0 with
  | some 0 => sign ++ natToString (n / q.den)
  | some k =>
    let m := n * 10 ^ k / q.den
    sign ++ natToString (m / 10 ^ k) ++ "." ++
      padStart (natToString (m % 10 ^ k)) k '0'
  | none => sign ++ natToString n ++ "/" ++ natToString q.den

/-- `formatTime` from `route.ts`: splits on `":"`, coerces the first two
components with `Number`, defaults non-finite components to 0, and renders
`H:MM` with `AM`/`PM` (`displayHours = ((h + 11) % 12) + 1`). -/
def formatTime (timeValue : String) : String :=
  let parts := splitColon timeValue
  let hours := (parts.get? 0).map jsNumber
  let minutes := (parts.get? 1).map jsNumber
  let safeHours := safeComponent hours
  let safeMinutes := safeComponent minutes
  let period := if (12 : JsQ) ≤ safeHours then "PM" else "AM"
  let displayHours := jsRem (safeHours + 11) 12 + 1
  jsNumToString displayHours ++ ":" ++ padStart (jsNumToString safeMinutes) 2 '0' ++ period

/-- A row of the `weekday_busy_blocks` table as selected by the `GET` handler
(`user_id, start_time, end_time`). -/
structure BusyBlockRow where
  user_id : String
  start_time : String
  end_time : String
deriving DecidableEq, Repr

/-- The `BusyInterval` record of `route.ts`. -/
structure BusyInterval where
  startMinutes : JsQ
  endMinutes : JsQ
  start_time : String
  end_time : String
deriving DecidableEq, Repr

/-- `grouped.get(uid) ?? []; existing.push(interval); grouped.set(uid, existing)`
on an insertion-ordered map modelled as an association list: append to the
existing entry in place, or append a fresh key at the end. -/
def insertGrouped (grouped : List (String × List BusyInterval)) (uid : String)
    (interval : BusyInterval) : List (String × List BusyInterval) :=
  match grouped with
  | [] => [(uid, [interval])]
  | (k, ivs) :: rest =>
    if k = uid then (k, ivs ++ [interval]) :: rest
    else (k, ivs) :: insertGrouped rest uid interval

/-- Body of the first loop of `mergeBusyIntervals`: convert one block's clock
strings to minutes, drop it when a conversion is non-finite or
`endMinutes <= startMinutes`, otherwise group it under its `user_id`. -/
def groupStep (grouped : List (String × List BusyInterval)) (block : BusyBlockRow) :
    List (String × List BusyInterval) :=
  let startMinutes := timeToMinutes block.start_time
  let endMinutes := timeToMinutes block.end_time
  if !(numberIsFinite startMinutes && numberIsFinite endMinutes) then grouped
  else if endMinutes ≤ startMinutes then grouped
  else insertGrouped grouped block.user_id
    ⟨startMinutes, endMinutes, block.start_time, block.end_time⟩

/-- First loop of `mergeBusyIntervals`: convert each block's clock strings to
minutes, drop blocks with non-finite conversions or `endMinutes <= startMinutes`,
and group the surviving intervals by `user_id` in insertion order. -/
def groupBlocks (blocks : List BusyBlockRow) : List (String × List BusyInterval) :=
  blocks.foldl groupStep []

/-- The order induced by the sort comparator of `mergeBusyIntervals`
(`(a, b) => a.startMinutes - b.startMinutes`, ties by `endMinutes`): `a`
sorts no later than `b`. -/
def intervalSortsBefore (a b : BusyInterval) : Prop :=
  a.startMinutes < b.startMinutes ∨
    (a.startMinutes ≤ b.startMinutes ∧ b.startMinutes ≤ a.startMinutes ∧
      a.endMinutes ≤ b.endMinutes)

instance : DecidableRel intervalSortsBefore := fun a b => by
  unfold intervalSortsBefore
  infer_instance

instance : IsTrans BusyInterval intervalSortsBefore :=
  ⟨by
    intro a b c hab hbc
    rcases hab with h1 | ⟨h1a, h1b, h1c⟩ <;> rcases hbc with h2 | ⟨h2a, h2b, h2c⟩
    · exact Or.inl (lt_trans h1 h2)
    · exact Or.inl (lt_of_lt_of_le h1 h2a)
    · exact Or.inl (lt_of_le_of_lt h1a h2)
    · exact Or.inr ⟨le_trans h1a h2a, le_trans h2b h1b, le_trans h1c h2c⟩⟩

instance : IsTotal BusyInterval intervalSortsBefore :=
  ⟨by
    intro a b
    unfold intervalSortsBefore
    rcases lt_trichotomy a.startMinutes.val b.startMinutes.val with h | h | h
    · exact Or.inl (Or.inl h)
    · rcases le_total a.endMinutes.val b.endMinutes.val with h' | h'
      · exact Or.inl (Or.inr ⟨le_of_eq (α := ℚ) h, le_of_eq (α := ℚ) h.symm, h'⟩)
      · exact Or.inr (Or.inr ⟨le_of_eq (α := ℚ) h.symm, le_of_eq (α := ℚ) h, h'⟩)
    · exact Or.inr (Or.inl h)⟩

/-- The sweep loop of `mergeBusyIntervals`, with the merged list kept in
reverse so that mutating `merged.at(-1)` is a head update. -/
def sweepRev (acc : List BusyInterval) : List BusyInterval → List BusyInterval
  | [] => acc.reverse
  | interval :: rest =>
    match acc with
    | [] => sweepRev [interval] rest
    | last :: tail =>
      if interval.startMinutes ≤ last.endMinutes then
        if last.endMinutes < interval.endMinutes then
          sweepRev ({ last with
            endMinutes := interval.endMinutes,
            end_time := interval.end_time } :: tail) rest
        else sweepRev (last :: tail) rest
      else sweepRev (interval :: last :: tail) rest

/-- Per-user body of the second loop of `mergeBusyIntervals`: stable sort by
`(startMinutes, endMinutes)`, then sweep, coalescing overlapping or
back-to-back intervals.  `Array.prototype.sort` is stable (ES2019), and a
stable sort's output is uniquely determined by the comparator's total
preorder, so the insertion sort used here computes exactly the engine's
result. -/
def mergeUser (intervals : List BusyInterval) : List BusyInterval :=
  sweepRev [] (intervals.insertionSort intervalSortsBefore)

/-- `mergeBusyIntervals` from `route.ts`; the returned `Map` is modelled as an
insertion-ordered association list. -/
def mergeBusyIntervals (blocks : List BusyBlockRow) : List (String × List BusyInterval) :=
  (groupBlocks blocks).map (fun g => (g.1, mergeUser g.2))

/-- The non-null result of `parseTimeParam`. -/
structure TimeParamResult where
  minutes : JsQ
  label : String
deriving DecidableEq, Repr

/-- Hour group of the `parseTimeParam` regex: `[01]?\d|2[0-3]`, anchored by
the following `:`. -/
def hourGroupOK (s : String) : Bool :=
  match s.data with
  | [a] => isDigitChar a
  | [a, b] =>
    ((a = '0' || a = '1') && isDigitChar b) ||
    (a = '2' && decide ('0' ≤ b ∧ b ≤ '3'))
  | _ => false

/-- Minute/second group of the `parseTimeParam` regex: `[0-5]\d`. -/
def minuteGroupOK (s : String) : Bool :=
  match s.data with
  | [a, b] => decide ('0' ≤ a ∧ a ≤ '5') && isDigitChar b
  | _ => false

/-- Matching `timeValue` against `/^([01]?\d|2[0-3]):([0-5]\d)(?::([0-5]\d))?$/`,
returning the three capture groups.  Since `:` cannot occur inside any group
and the pattern is anchored at both ends, a match is exactly a split on `:`
into two or three group-shaped pieces. -/
def matchTimeRegex (s : String) : Option (String × String × Option String) :=
  match splitColon s with
  | [h, m] => if hourGroupOK h && minuteGroupOK m then some (h, m, none) else none
  | [h, m, sec] =>
    if hourGroupOK h && minuteGroupOK m && minuteGroupOK sec then
      some (h, m, some sec)
    else none
  | _ => none

/-- `parseTimeParam` from `route.ts`.  `none` input models a `null` argument;
the empty string is falsy in the `if (!timeValue)` guard. -/
def parseTimeParam (timeValue : Option String) : Option TimeParamResult :=
  match timeValue with
  | none => none
  | some tv =>
    if tv = "" then none
    else
      match matchTimeRegex tv with
      | none => none
      | some (h, m, sec) =>
        let normalized := h ++ ":" ++ m ++ ":" ++ sec.getD "00"
        some ⟨timeToMinutes normalized, formatTime normalized⟩

/-- A normalized group-member row (`user_id` plus the profile display name,
`none` when the profile or its `display_name` is null). -/
structure MemberRow where
  user_id : String
  display_name : Option String
deriving DecidableEq, Repr

/-- `member.profiles?.display_name?.trim()` followed by `displayName || user_id`
(an empty trimmed name is falsy and falls back to the raw identifier). -/
def memberName (m : MemberRow) : String :=
  match m.display_name with
  | some dn => let t := jsTrim dn; if t = "" then m.user_id else t
  | none => m.user_id

/-- Value type of the handler's `busyMap`. -/
structure BusyUntilEntry where
  busy_until : String
  endMinutes : JsQ
deriving DecidableEq, Repr

/-- Value type of the handler's `nextBusyMap`. -/
structure NextBusyEntry where
  startMinutes : JsQ
  startLabel : String
deriving DecidableEq, Repr

/-- `Map.prototype.get` on an insertion-ordered association list. -/
def mapGet {α : Type} (m : List (String × α)) (k : String) : Option α :=
  match m with
  | [] => none
  | (k', v) :: rest => if k' = k then some v else mapGet rest k

/-- `Map.prototype.set` on an insertion-ordered association list. -/
def mapSet {α : Type} (m : List (String × α)) (k : String) (v : α) :
    List (String × α) :=
  match m with
  | [] => [(k, v)]
  | (k', v') :: rest =>
    if k' = k then (k', v) :: rest else (k', v') :: mapSet rest k v

/-- Body of the interval loop in the `GET` handler: update `nextBusyMap` with
the earliest interval starting strictly after the reference minute, and
`busyMap` with the containing interval of maximal end. -/
def scanStep (referenceMinutes : JsQ) (uid : String)
    (maps : List (String × BusyUntilEntry) × List (String × NextBusyEntry))
    (interval : BusyInterval) :
    List (String × BusyUntilEntry) × List (String × NextBusyEntry) :=
  let busyMap := maps.1
  let nextBusyMap := maps.2
  let nextBusyMap' :=
    if referenceMinutes < interval.startMinutes then
      match mapGet nextBusyMap uid with
      | none =>
        mapSet nextBusyMap uid ⟨interval.startMinutes, formatTime interval.start_time⟩
      | some existingNext =>
        if interval.startMinutes < existingNext.startMinutes then
          mapSet nextBusyMap uid ⟨interval.startMinutes, formatTime interval.start_time⟩
        else nextBusyMap
    else nextBusyMap
  let busyMap' :=
    if interval.startMinutes ≤ referenceMinutes ∧ referenceMinutes < interval.endMinutes then
      match mapGet busyMap uid with
      | none => mapSet busyMap uid ⟨formatTime interval.end_time, interval.endMinutes⟩
      | some existing =>
        if existing.endMinutes < interval.endMinutes then
          mapSet busyMap uid ⟨formatTime interval.end_time, interval.endMinutes⟩
        else busyMap
    else busyMap
  (busyMap', nextBusyMap')

/-- The two nested loops of the `GET` handler that populate `busyMap` and
`nextBusyMap` from the merged intervals. -/
def buildMaps (merged : List (String × List BusyInterval)) (referenceMinutes : JsQ) :
    List (String × BusyUntilEntry) × List (String × NextBusyEntry) :=
  merged.foldl (fun maps entry => entry.2.foldl (scanStep referenceMinutes entry.1) maps)
    ([], [])

structure FreeEntry where
  user_id : String
  display_name : String
  free_until : Option String
deriving DecidableEq, Repr

structure BusyEntry where
  user_id : String
  display_name : String
  busy_until : String
deriving DecidableEq, Repr

structure UnknownEntry where
  user_id : String
  display_name : String
deriving DecidableEq, Repr

/-- Body of the member loop of the `GET` handler: route one member into
`unknown`, `busy`, or `free`. -/
def classifyStep (uploaded : List String)
    (busyMap : List (String × BusyUntilEntry))
    (nextBusyMap : List (String × NextBusyEntry))
    (acc : List FreeEntry × List BusyEntry × List UnknownEntry)
    (member : MemberRow) :
    List FreeEntry × List BusyEntry × List UnknownEntry :=
  let free := acc.1
  let busy := acc.2.1
  let unknown := acc.2.2
  let name := memberName member
  if !(uploaded.contains member.user_id) then
    (free, busy, unknown ++ [⟨member.user_id, name⟩])
  else
    match mapGet busyMap member.user_id with
    | some busyEntry =>
      (free, busy ++ [⟨member.user_id, name, busyEntry.busy_until⟩], unknown)
    | none =>
      (free ++ [⟨member.user_id, name,
        (mapGet nextBusyMap member.user_id).map (fun n => n.startLabel)⟩],
       busy, unknown)

/-- The member loop of the `GET` handler: each member lands in exactly one of
the `unknown`, `busy`, `free` arrays. -/
def classifyMembers (members : List MemberRow) (uploaded : List String)
    (busyMap : List (String × BusyUntilEntry))
    (nextBusyMap : List (String × NextBusyEntry)) :
    List FreeEntry × List BusyEntry × List UnknownEntry :=
  members.foldl (classifyStep uploaded busyMap nextBusyMap) ([], [], [])

/-- The response payload of the `GET` handler. -/
structure AvailabilityResponse where
  free : List FreeEntry
  busy : List BusyEntry
  unknown : List UnknownEntry
  checked_time : Option String
deriving DecidableEq, Repr

/-- The busy blocks the handler works with: the `weekday_busy_blocks` query
is only issued when `weekday >= 1 && weekday <= 5`; on weekends `busyBlocks`
stays `[]`. -/
def effectiveBlocks (storeBlocks : List BusyBlockRow) (nowWeekday : ℤ) :
    List BusyBlockRow :=
  if 1 ≤ nowWeekday ∧ nowWeekday ≤ 5 then storeBlocks else []

/-- `referenceMinutes = parsedTime?.minutes ?? nowMinutes`. -/
def referenceOf (parsedTime : Option TimeParamResult) (nowMinutes : JsQ) : JsQ :=
  match parsedTime with
  | some p => p.minutes
  | none => nowMinutes

/-- The availability computation of the `GET` handler after the persistence
reads (lines 308-411 of the route): weekend queries use no busy blocks, the
reference minute is the validated `time` parameter or the current wall-clock
minute, and each member is classified from the merged intervals.
`storeBlocks` stands for the rows the `weekday_busy_blocks` query would
return; `nowWeekday`/`nowMinutes` stand for `getCurrentTimeParts()`. -/
def availabilityCore (members : List MemberRow) (uploaded : List String)
    (storeBlocks : List BusyBlockRow) (nowWeekday : ℤ) (nowMinutes : JsQ)
    (parsedTime : Option TimeParamResult) : AvailabilityResponse :=
  let busyBlocks := effectiveBlocks storeBlocks nowWeekday
  let referenceMinutes := referenceOf parsedTime nowMinutes
  let merged := mergeBusyIntervals busyBlocks
  let maps := buildMaps merged referenceMinutes
  let lists := classifyMembers members uploaded maps.1 maps.2
  ⟨lists.1, lists.2.1, lists.2.2, parsedTime.map (fun p => p.label)⟩

/-- Days-from-civil-date (proleptic Gregorian, Unix epoch day 0 = 1970-01-01),
the standard era-based algorithm used by civil-time libraries. -/
def daysFromCivil (y : ℤ) (m d : ℤ) : ℤ :=
  let y' := y - (if m ≤ 2 then 1 else 0)
  let era := Int.fdiv y' 400
  let yoe := y' - era * 400
  let mp := m + (if 2 < m then -3 else 9)
  let doy := Int.fdiv (153 * mp + 2) 5 + d - 1
  let doe := yoe * 365 + Int.fdiv yoe 4 - Int.fdiv yoe 100 + doy
  era * 146097 + doe - 719468

/-- Civil-date-from-days, inverse of `daysFromCivil`. -/
def civilFromDays (z : ℤ) : ℤ × ℤ × ℤ :=
  let z' := z + 719468
  let era := Int.fdiv z' 146097
  let doe := z' - era * 146097
  let yoe := Int.fdiv (doe - Int.fdiv doe 1460 + Int.fdiv doe 36524 - Int.fdiv doe 146096) 365
  let y := yoe + era * 400
  let doy := doe - (365 * yoe + Int.fdiv yoe 4 - Int.fdiv yoe 100)
  let mp := Int.fdiv (5 * doy + 2) 153
  let d := doy - Int.fdiv (153 * mp + 2) 5 + 1
  let m := mp + (if mp < 10 then 3 else -9)
  (y + (if m ≤ 2 then 1 else 0), m, d)

/-- Day-of-week of an epoch day, `0 = Sunday .. 6 = Saturday`
(epoch day 0, 1970-01-01, was a Thursday). -/
def weekdayNumOfDay (z : ℤ) : ℤ :=
  Int.fmod (z + 4) 7

/-- Epoch day of the first Sunday of month `m` of year `y`. -/
def firstSundayOfMonth (y m : ℤ) : ℤ :=
  let d1 := daysFromCivil y m 1
  d1 + Int.fmod (7 - weekdayNumOfDay d1) 7

/-- Start of US daylight saving time for year `y` (second Sunday of March,
02:00 CST = 08:00 UTC), in UTC epoch minutes.  The post-2007 US rule, which
is what `Intl` applies to the modern dates handled here. -/
def dstStartUtcMin (y : ℤ) : ℤ :=
  (firstSundayOfMonth y 3 + 7) * 1440 + 8 * 60

/-- End of US daylight saving time for year `y` (first Sunday of November,
02:00 CDT = 07:00 UTC), in UTC epoch minutes. -/
def dstEndUtcMin (y : ℤ) : ℤ :=
  firstSundayOfMonth y 11 * 1440 + 7 * 60

/-- Whether a UTC instant (epoch minutes) falls in America/Chicago daylight
saving time. -/
def isChicagoDST (utcMin : ℤ) : Bool :=
  let localStdDay := Int.fdiv (utcMin - 360) 1440
  let y := (civilFromDays localStdDay).1
  decide (dstStartUtcMin y ≤ utcMin ∧ utcMin < dstEndUtcMin y)

/-- Wall-clock epoch minutes in America/Chicago (UTC-5 during DST, UTC-6
otherwise), the zone conversion `Intl.DateTimeFormat` performs for
`timeZone: "America/Chicago"`. -/
def chicagoLocalMin (utcMin : ℤ) : ℤ :=
  utcMin + (if isChicagoDST utcMin then -300 else -360)

/-- A JavaScript `Date`: an absolute instant in epoch milliseconds.
`Date` comparison operators compare these time values. -/
structure JsDate where
  epochMs : ℤ
deriving DecidableEq, Repr

def dateUtcMin (d : JsDate) : ℤ :=
  Int.fdiv d.epochMs 60000

/-- Minute-of-day of an instant on the Chicago wall clock. -/
def chicagoMinuteOfDay (d : JsDate) : ℤ :=
  Int.fmod (chicagoLocalMin (dateUtcMin d)) 1440

/-- Civil day (epoch day number) of an instant on the Chicago wall clock. -/
def chicagoDay (d : JsDate) : ℤ :=
  Int.fdiv (chicagoLocalMin (dateUtcMin d)) 1440

def pad2 (n : ℤ) : String :=
  padStart (natToString n.toNat) 2 '0'

/-- `formatTime(value: Date)` from `parse-ics.ts`: the `HH:MM` wall-clock
parts in America/Chicago (2-digit, `hour12: false`), with `:00` seconds. -/
def icsFormatTime (d : JsDate) : String :=
  let minuteOfDay := chicagoMinuteOfDay d
  pad2 (Int.fdiv minuteOfDay 60) ++ ":" ++ pad2 (Int.fmod minuteOfDay 60) ++ ":00"

/-- The short weekday label (`"Sun" .. "Sat"`) produced by the
`WEEKDAY_FORMATTER` for an instant in America/Chicago. -/
def chicagoWeekdayLabel (d : JsDate) : String :=
  match (weekdayNumOfDay (chicagoDay d)).toNat with
  | 0 => "Sun"
  | 1 => "Mon"
  | 2 => "Tue"
  | 3 => "Wed"
  | 4 => "Thu"
  | 5 => "Fri"
  | _ => "Sat"

/-- `WEEKDAY_LOOKUP` from `parse-ics.ts` (`Mon=1 .. Sun=7`); `?? null` on a
missing key is the `none` branch. -/
def WEEKDAY_LOOKUP (label : String) : Option ℤ :=
  if label = "Mon" then some 1
  else if label = "Tue" then some 2
  else if label = "Wed" then some 3
  else if label = "Thu" then some 4
  else if label = "Fri" then some 5
  else if label = "Sat" then some 6
  else if label = "Sun" then some 7
  else none

/-- `getWeekdayInZone` from `parse-ics.ts`. -/
def getWeekdayInZone (d : JsDate) : Option ℤ :=
  WEEKDAY_LOOKUP (chicagoWeekdayLabel d)

/-- One element of the `rrule` `byweekday` data: a bare weekday number or an
object optionally carrying a `weekday` field. -/
inductive ByweekdayVal where
  | num : ℤ → ByweekdayVal
  | obj : Option ℤ → ByweekdayVal
deriving DecidableEq, Repr

/-- The `byweekday` field shape from the `ParsedEvent` type of
`parse-ics.ts`: a single value or an array of values. -/
inductive Byweekday where
  | scalar : ByweekdayVal → Byweekday
  | arr : List ByweekdayVal → Byweekday
deriving DecidableEq, Repr

/-- `Array.isArray(byweekday) ? byweekday : [byweekday]`. -/
def byweekdayList : Byweekday → List ByweekdayVal
  | .scalar v => [v]
  | .arr vs => vs

/-- A raw event as exposed by the black-box ICS parser (the `ParsedEvent`
type of `parse-ics.ts`); `rrule?.options?.byweekday` is flattened into one
optional field, and the source's `end` field is named `stop` (`end` is a
Lean keyword). -/
structure ParsedEvent where
  type : Option String
  start : Option JsDate
  stop : Option JsDate
  datetype : Option String
  byweekday : Option Byweekday
deriving DecidableEq, Repr

/-- `Set.prototype.add` on an insertion-ordered list model of `Set<number>`. -/
def addToSet (s : List ℤ) (n : ℤ) : List ℤ :=
  if n ∈ s then s else s ++ [n]

/-- The `normalized` set built by `extractWeekdays`: each entry's numeric
weekday code (bare number, or the `weekday` field of an object), plus 1,
deduplicated in insertion order; entries without a numeric code contribute
nothing. -/
def normalizedWeekdays (bw : Byweekday) : List ℤ :=
  (byweekdayList bw).foldl
    (fun s entry =>
      match entry with
      | .num n => addToSet s (n + 1)
      | .obj (some w) => addToSet s (w + 1)
      | .obj none => s)
    []

/-- `extractWeekdays` from `parse-ics.ts`: the recurrence weekday-set when
non-empty, else the weekday of the start instant in the fixed zone (the
`if (weekday)` truthiness check makes a `0` lookup value fall through),
else the empty list. -/
def extractWeekdays (event : ParsedEvent) : List ℤ :=
  let fromRule : List ℤ :=
    match event.byweekday with
    | some bw => normalizedWeekdays bw
    | none => []
  if fromRule ≠ [] then fromRule
  else
    match event.start with
    | some d =>
      match getWeekdayInZone d with
      | some w => if w = 0 then [] else [w]
      | none => []
    | none => []

/-- The emitted busy-block record of `parse-ics.ts`. -/
structure BusyBlockInput where
  weekday : ℤ
  start_time : String
  end_time : String
deriving DecidableEq, Repr

def WEEKDAY_MIN : ℤ := 1
def WEEKDAY_MAX : ℤ := 5

/-- Per-event body of the `parseIcsToBusyBlocks` loop: keep a timed `VEVENT`
with `start < end`, resolve weekdays, derive the Chicago clock strings from
the start/end instants, and emit one block per resolved business-week
weekday (an event failing any filter contributes nothing). -/
def icsEventBlocks (entry : ParsedEvent) : List BusyBlockInput :=
  if entry.type ≠ some "VEVENT" then []
  else
    match entry.start, entry.stop with
    | some s, some e =>
      if entry.datetype = some "date" then []
      else if e.epochMs ≤ s.epochMs then []
      else
        let weekdays := extractWeekdays entry
        if weekdays = [] then []
        else
          let startTime := icsFormatTime s
          let endTime := icsFormatTime e
          weekdays.foldl
            (fun acc weekday =>
              if weekday < WEEKDAY_MIN ∨ WEEKDAY_MAX < weekday then acc
              else acc ++ [⟨weekday, startTime, endTime⟩])
            []
    | _, _ => []

/-- `parseIcsToBusyBlocks` from `parse-ics.ts`, taken from the output of the
black-box `ical.parseICS` grammar parser (`Object.values(parsed)` in
enumeration order). -/
def parseIcsToBusyBlocks (events : List ParsedEvent) : List BusyBlockInput :=
  events.foldl (fun blocks entry => blocks ++ icsEventBlocks entry) []

/-! Proof-side definitions: predicates and reformulations used to state and
prove the properties of the embedded code. -/

/-- Keys of an insertion-ordered association list. -/
def keysOf {α : Type} (m : List (String × α)) : List String :=
  m.map Prod.fst

/-- The consistency a grouped interval enjoys by construction: positive
length, and minute fields derived from its own clock strings. -/
def IntervalOK (i : BusyInterval) : Prop :=
  i.startMinutes < i.endMinutes ∧
  timeToMinutes i.start_time = i.startMinutes ∧
  timeToMinutes i.end_time = i.endMinutes

/-- Rows obtained by re-reading every merged interval's `user_id`,
`start_time`, `end_time` in map order — the input of a second merge pass. -/
def flattenMerged (m : List (String × List BusyInterval)) : List BusyBlockRow :=
  (m.map (fun e => e.2.map (fun i => BusyBlockRow.mk e.1 i.start_time i.end_time))).flatten

/-- The merged intervals the handler holds for a given user (`[]` when the
user has none). -/
def userIntervals (blocks : List BusyBlockRow) (uid : String) : List BusyInterval :=
  (mapGet (mergeBusyIntervals blocks) uid).getD []

/-- `[start, end)` containment of the reference minute. -/
def containsRef (ref : JsQ) (i : BusyInterval) : Prop :=
  i.startMinutes ≤ ref ∧ ref < i.endMinutes

/-- The `busyMap` update of the handler's interval loop, restricted to one
user's running value. -/
def scanBStep (ref : JsQ) (b : Option BusyUntilEntry) (interval : BusyInterval) :
    Option BusyUntilEntry :=
  if interval.startMinutes ≤ ref ∧ ref < interval.endMinutes then
    match b with
    | none => some ⟨formatTime interval.end_time, interval.endMinutes⟩
    | some existing =>
      if existing.endMinutes < interval.endMinutes then
        some ⟨formatTime interval.end_time, interval.endMinutes⟩
      else b
  else b

/-- The `nextBusyMap` update of the handler's interval loop, restricted to
one user's running value. -/
def scanNStep (ref : JsQ) (n : Option NextBusyEntry) (interval : BusyInterval) :
    Option NextBusyEntry :=
  if ref < interval.startMinutes then
    match n with
    | none => some ⟨interval.startMinutes, formatTime interval.start_time⟩
    | some existingNext =>
      if interval.startMinutes < existingNext.startMinutes then
        some ⟨interval.startMinutes, formatTime interval.start_time⟩
      else n
  else n

/-- Spec-side reading of the claimed `parseClockParam` hour group: one digit,
or two digits whose value is at most 23. -/
def specHourStr (h : String) : Prop :=
  (∃ a, h.data = [a] ∧ isDigitChar a) ∨
  (∃ a b, h.data = [a, b] ∧ isDigitChar a ∧ isDigitChar b ∧
    digitsToNat h.data ≤ 23)

/-- Spec-side reading of a claimed minute/second group: exactly two digits
whose value is at most 59. -/
def specMinuteStr (m : String) : Prop :=
  ∃ a b, m.data = [a, b] ∧ isDigitChar a ∧ isDigitChar b ∧
    digitsToNat m.data ≤ 59

/-- Spec-side acceptance predicate of the `time` query parameter: `H:MM`,
`HH:MM`, `H:MM:SS` or `HH:MM:SS` with hour 0-23, minute 0-59, seconds
0-59. -/
def specClockString (s : String) : Prop :=
  match splitColon s with
  | [h, m] => specHourStr h ∧ specMinuteStr m
  | [h, m, sec] => specHourStr h ∧ specMinuteStr m ∧ specMinuteStr sec
  | _ => False

/-- The numeric weekday codes carried by a recurrence descriptor, in order:
bare numbers, and the `weekday` fields of objects that have one. -/
def byweekdayCodes (bw : Byweekday) : List ℤ :=
  (byweekdayList bw).filterMap
    (fun v =>
      match v with
      | .num n => some n
      | .obj w => w)

/-- An event whose instants satisfy the claimed `end > start` precondition
(events without both instants are also dropped by the code, so they are kept
by this predicate only to isolate the inverted-interval filter). -/
def goodInstantEvent (e : ParsedEvent) : Bool :=
  match e.start, e.stop with
  | some s, some t => decide (s.epochMs < t.epochMs)
  | _, _ => true

/-! Basic order facts about `JsQ`, lifted from `ℚ` through `JsQ.val`. -/

theorem JsQ.le_def {a b : JsQ} : a ≤ b ↔ a.val ≤ b.val := Iff.rfl

theorem JsQ.lt_def {a b : JsQ} : a < b ↔ a.val < b.val := Iff.rfl

theorem jsq_lt_of_not_le {a b : JsQ} (h : ¬ a ≤ b) : b < a := by
  rw [JsQ.lt_def]
  rw [JsQ.le_def] at h
  exact lt_of_not_le h

theorem jsq_le_total (a b : JsQ) : a ≤ b ∨ b ≤ a :=
  show a.val ≤ b.val ∨ b.val ≤ a.val from le_total _ _

/-! Lemmas about grouping. -/

theorem insertGrouped_values {g : List (String × List BusyInterval)} {u : String}
    {iv : BusyInterval} {e : String × List BusyInterval} {i : BusyInterval}
    (he : e ∈ insertGrouped g u iv) (hi : i ∈ e.2) :
    (∃ e' ∈ g, i ∈ e'.2) ∨ i = iv := by
  induction g with
  | nil =>
    simp only [insertGrouped, List.mem_singleton] at he
    subst he
    simp only [List.mem_singleton] at hi
    exact Or.inr hi
  | cons hd tl ih =>
    simp only [insertGrouped] at he
    by_cases hk : hd.1 = u
    · simp only [hk, if_pos rfl] at he
      rcases List.mem_cons.mp he with he | he
      · subst he
        rcases List.mem_append.mp hi with hi | hi
        · exact Or.inl ⟨hd, List.mem_cons_self _ _, hi⟩
        · simp only [List.mem_singleton] at hi
          exact Or.inr hi
      · exact Or.inl ⟨e, List.mem_cons_of_mem _ he, hi⟩
    · rw [if_neg hk] at he
      rcases List.mem_cons.mp he with he | he
      · exact Or.inl ⟨e, by simp [he], hi⟩
      · rcases ih he with ⟨e', he', hi'⟩ | h
        · exact Or.inl ⟨e', List.mem_cons_of_mem _ he', hi'⟩
        · exact Or.inr h

theorem groupStep_values {g : List (String × List BusyInterval)} {b : BusyBlockRow}
    {e : String × List BusyInterval} {i : BusyInterval}
    (he : e ∈ groupStep g b) (hi : i ∈ e.2) :
    (∃ e' ∈ g, i ∈ e'.2) ∨ IntervalOK i := by
  simp only [groupStep, numberIsFinite, Bool.and_self, Bool.not_true,
    Bool.false_eq_true, if_false] at he
  by_cases hle : timeToMinutes b.end_time ≤ timeToMinutes b.start_time
  · rw [if_pos hle] at he
    exact Or.inl ⟨e, he, hi⟩
  · rw [if_neg hle] at he
    rcases insertGrouped_values he hi with h | h
    · exact Or.inl h
    · subst h
      exact Or.inr ⟨jsq_lt_of_not_le hle, rfl, rfl⟩

theorem groupFold_values {blocks : List BusyBlockRow} :
    ∀ {acc : List (String × List BusyInterval)},
    (∀ e ∈ acc, ∀ i ∈ e.2, IntervalOK i) →
    ∀ e ∈ blocks.foldl groupStep acc, ∀ i ∈ e.2, IntervalOK i := by
  induction blocks with
  | nil => intro acc hacc; simpa using hacc
  | cons b bs ih =>
    intro acc hacc
    simp only [List.foldl_cons]
    refine ih (fun e' he' i' hi' => ?_)
    rcases groupStep_values he' hi' with ⟨e'', he'', hi''⟩ | hok
    · exact hacc e'' he'' i' hi''
    · exact hok

theorem groupBlocks_values {blocks : List BusyBlockRow} :
    ∀ e ∈ groupBlocks blocks, ∀ i ∈ e.2, IntervalOK i :=
  groupFold_values (by simp)

/-! Lemmas about the sort comparator. -/

theorem intervalSortsBefore_start_le {a b : BusyInterval}
    (h : intervalSortsBefore a b) : a.startMinutes ≤ b.startMinutes := by
  rcases h with h | ⟨h, _, _⟩
  · exact le_of_lt h
  · exact h

/-! The sweep loop invariant. -/

theorem sweepRev_spec :
    ∀ (rest acc : List BusyInterval),
    (∀ i ∈ acc, IntervalOK i) →
    (∀ i ∈ rest, IntervalOK i) →
    List.Chain' (fun a b => b.endMinutes < a.startMinutes) acc →
    List.Pairwise (fun a b : BusyInterval => a.startMinutes ≤ b.startMinutes) rest →
    (∀ a, acc.head? = some a → ∀ r ∈ rest, a.startMinutes ≤ r.startMinutes) →
    (∀ i ∈ sweepRev acc rest, IntervalOK i) ∧
    List.Chain' (fun a b : BusyInterval => a.endMinutes < b.startMinutes)
      (sweepRev acc rest) := by
  intro rest
  induction rest with
  | nil =>
    intro acc hacc _ hchain _ _
    refine ⟨fun i hi => ?_, ?_⟩
    · rw [sweepRev] at hi
      exact hacc i (List.mem_reverse.mp hi)
    · rw [sweepRev, List.chain'_reverse]
      exact hchain
  | cons interval rest' ih =>
    intro acc hacc hrest hchain hsorted hlink
    have hok_interval : IntervalOK interval := hrest interval (List.mem_cons_self _ _)
    have hrest' : ∀ i ∈ rest', IntervalOK i :=
      fun i hi => hrest i (List.mem_cons_of_mem _ hi)
    have hsorted' :
        List.Pairwise (fun a b : BusyInterval => a.startMinutes ≤ b.startMinutes) rest' :=
      hsorted.of_cons
    have hhead : ∀ r ∈ rest', interval.startMinutes ≤ r.startMinutes :=
      fun r hr => List.rel_of_pairwise_cons hsorted hr
    cases acc with
    | nil =>
      rw [sweepRev]
      refine ih [interval] ?_ hrest' ?_ hsorted' ?_
      · intro i hi
        rw [List.mem_singleton] at hi
        exact hi ▸ hok_interval
      · exact List.chain'_singleton _
      · intro a ha r hr
        simp only [List.head?_cons, Option.some.injEq] at ha
        exact ha ▸ hhead r hr
    | cons last tail =>
      have hlinklast : ∀ r ∈ interval :: rest', last.startMinutes ≤ r.startMinutes :=
        hlink last rfl
      rw [sweepRev]
      by_cases hO : interval.startMinutes ≤ last.endMinutes
      · rw [if_pos hO]
        by_cases hE : last.endMinutes < interval.endMinutes
        · rw [if_pos hE]
          refine ih _ ?_ hrest' ?_ hsorted' ?_
          · intro i hi
            rcases List.mem_cons.mp hi with hi | hi
            · subst hi
              have hlast := hacc last (List.mem_cons_self _ _)
              exact ⟨lt_trans hlast.1 hE, hlast.2.1, hok_interval.2.2⟩
            · exact hacc i (List.mem_cons_of_mem _ hi)
          · rw [List.chain'_cons'] at hchain ⊢
            exact ⟨fun b hb => hchain.1 b hb, hchain.2⟩
          · intro a ha r hr
            simp only [List.head?_cons, Option.some.injEq] at ha
            subst ha
            exact hlinklast r (List.mem_cons_of_mem _ hr)
        · rw [if_neg hE]
          refine ih _ hacc hrest' hchain hsorted' ?_
          intro a ha r hr
          simp only [List.head?_cons, Option.some.injEq] at ha
          exact ha ▸ hlinklast r (List.mem_cons_of_mem _ hr)
      · rw [if_neg hO]
        refine ih _ ?_ hrest' ?_ hsorted' ?_
        · intro i hi
          rcases List.mem_cons.mp hi with hi | hi
          · exact hi ▸ hok_interval
          · exact hacc i hi
        · rw [List.chain'_cons]
          exact ⟨jsq_lt_of_not_le hO, hchain⟩
        · intro a ha r hr
          simp only [List.head?_cons, Option.some.injEq] at ha
          exact ha ▸ hhead r hr

/-- `mergeUser` output: all intervals keep `IntervalOK` and consecutive
intervals are separated (`a.endMinutes < b.startMinutes`). -/
theorem mergeUser_spec {ivs : List BusyInterval}
    (h : ∀ i ∈ ivs, IntervalOK i) :
    (∀ i ∈ mergeUser ivs, IntervalOK i) ∧
    List.Chain' (fun a b : BusyInterval => a.endMinutes < b.startMinutes)
      (mergeUser ivs) := by
  have hsorted := List.sorted_insertionSort intervalSortsBefore ivs
  refine sweepRev_spec (ivs.insertionSort intervalSortsBefore) [] (by simp) ?_ (by simp) ?_ (by simp)
  · intro i hi
    exact h i ((List.mem_insertionSort intervalSortsBefore).mp hi)
  · exact hsorted.imp intervalSortsBefore_start_le

/-- Strict `startMinutes` ordering follows from separation plus positive
interval length. -/
theorem chain_sep_to_start {l : List BusyInterval}
    (hp : ∀ i ∈ l, i.startMinutes < i.endMinutes)
    (h : l.Chain' (fun a b => a.endMinutes < b.startMinutes)) :
    l.Chain' (fun a b : BusyInterval => a.startMinutes < b.startMinutes) := by
  induction l with
  | nil => simp
  | cons a t ih =>
    cases t with
    | nil => simp
    | cons b t' =>
      rw [List.chain'_cons] at h ⊢
      refine ⟨lt_trans (hp a (List.mem_cons_self _ _)) h.1, ?_⟩
      exact ih (fun i hi => hp i (List.mem_cons_of_mem _ hi)) h.2

/-- Decomposition of a `mergeBusyIntervals` map entry. -/
theorem mergeBusyIntervals_entry {blocks : List BusyBlockRow} {u : String}
    {ivs : List BusyInterval} (h : (u, ivs) ∈ mergeBusyIntervals blocks) :
    ∃ ivs0, (u, ivs0) ∈ groupBlocks blocks ∧ ivs = mergeUser ivs0 := by
  unfold mergeBusyIntervals at h
  rcases List.mem_map.mp h with ⟨g, hg, hEq⟩
  refine ⟨g.2, ?_, ?_⟩
  · have : g.1 = u := congrArg Prod.fst hEq
    rw [← this]
    exact hg
  · exact (congrArg Prod.snd hEq).symm

/-- C1: for every input list of busy-block rows, each user's merged output is
sorted strictly ascending by `startMinutes`, consecutive intervals `a, b`
satisfy `b.startMinutes > a.endMinutes`, and every output interval has
`endMinutes > startMinutes` (so a block whose converted end is at most its
converted start never appears in the merged output). -/
theorem mergeBusyIntervals_sorted_disjoint
    (blocks : List BusyBlockRow) (u : String) (ivs : List BusyInterval)
    (h : (u, ivs) ∈ mergeBusyIntervals blocks) :
    List.Chain' (fun a b : BusyInterval => a.startMinutes < b.startMinutes) ivs ∧
    List.Chain' (fun a b : BusyInterval => a.endMinutes < b.startMinutes) ivs ∧
    ∀ i ∈ ivs, i.startMinutes < i.endMinutes := by
  rcases mergeBusyIntervals_entry h with ⟨ivs0, hg, rfl⟩
  have hok : ∀ i ∈ ivs0, IntervalOK i :=
    fun i hi => groupBlocks_values (u, ivs0) hg i hi
  rcases mergeUser_spec hok with ⟨hall, hchain⟩
  have hpos : ∀ i ∈ mergeUser ivs0, i.startMinutes < i.endMinutes :=
    fun i hi => (hall i hi).1
  exact ⟨chain_sep_to_start hpos hchain, hchain, hpos⟩

/-- C1 witness: the two back-to-back blocks `10:00-13:00` and `13:00-15:00`
merge into a single interval, and the invariant holds for it. -/
theorem mergeBusyIntervals_sorted_disjoint_witness :
    (("u1", userIntervals
        [⟨"u1", "10:00:00", "13:00:00"⟩, ⟨"u1", "13:00:00", "15:00:00"⟩] "u1") ∈
      mergeBusyIntervals
        [⟨"u1", "10:00:00", "13:00:00"⟩, ⟨"u1", "13:00:00", "15:00:00"⟩]) ∧
    (List.Chain' (fun a b : BusyInterval => a.startMinutes < b.startMinutes)
        (userIntervals
          [⟨"u1", "10:00:00", "13:00:00"⟩, ⟨"u1", "13:00:00", "15:00:00"⟩] "u1") ∧
      List.Chain' (fun a b : BusyInterval => a.endMinutes < b.startMinutes)
        (userIntervals
          [⟨"u1", "10:00:00", "13:00:00"⟩, ⟨"u1", "13:00:00", "15:00:00"⟩] "u1") ∧
      ∀ i ∈ userIntervals
          [⟨"u1", "10:00:00", "13:00:00"⟩, ⟨"u1", "13:00:00", "15:00:00"⟩] "u1",
        i.startMinutes < i.endMinutes) :=
  ⟨by decide,
    mergeBusyIntervals_sorted_disjoint
      [⟨"u1", "10:00:00", "13:00:00"⟩, ⟨"u1", "13:00:00", "15:00:00"⟩] "u1"
      (userIntervals
        [⟨"u1", "10:00:00", "13:00:00"⟩, ⟨"u1", "13:00:00", "15:00:00"⟩] "u1")
      (by decide)⟩

/-- C10: every interval produced by `mergeBusyIntervals` keeps its numeric
minute fields consistent with its clock-string labels, including when
merging extends an interval (`end_time` is updated together with
`endMinutes`). -/
theorem mergeBusyIntervals_label_minutes_consistent
    (blocks : List BusyBlockRow) (u : String) (ivs : List BusyInterval)
    (h : (u, ivs) ∈ mergeBusyIntervals blocks) :
    ∀ i ∈ ivs, timeToMinutes i.start_time = i.startMinutes ∧
      timeToMinutes i.end_time = i.endMinutes := by
  rcases mergeBusyIntervals_entry h with ⟨ivs0, hg, rfl⟩
  have hok : ∀ i ∈ ivs0, IntervalOK i :=
    fun i hi => groupBlocks_values (u, ivs0) hg i hi
  rcases mergeUser_spec hok with ⟨hall, _⟩
  exact fun i hi => (hall i hi).2

/-- C10 witness: label/minute consistency on a merged overlapping pair. -/
theorem mergeBusyIntervals_label_minutes_consistent_witness :
    (("u2", userIntervals
        [⟨"u2", "09:00:00", "11:30:00"⟩, ⟨"u2", "10:15:00", "12:00:00"⟩] "u2") ∈
      mergeBusyIntervals
        [⟨"u2", "09:00:00", "11:30:00"⟩, ⟨"u2", "10:15:00", "12:00:00"⟩]) ∧
    ∀ i ∈ userIntervals
        [⟨"u2", "09:00:00", "11:30:00"⟩, ⟨"u2", "10:15:00", "12:00:00"⟩] "u2",
      timeToMinutes i.start_time = i.startMinutes ∧
        timeToMinutes i.end_time = i.endMinutes :=
  ⟨by decide,
    mergeBusyIntervals_label_minutes_consistent
      [⟨"u2", "09:00:00", "11:30:00"⟩, ⟨"u2", "10:15:00", "12:00:00"⟩] "u2"
      (userIntervals
        [⟨"u2", "09:00:00", "11:30:00"⟩, ⟨"u2", "10:15:00", "12:00:00"⟩] "u2")
      (by decide)⟩

/-! Machinery for idempotence: keys, nonemptiness, and regrouping. -/

theorem keysOf_cons {α : Type} {e : String × α} {l : List (String × α)} :
    keysOf (e :: l) = e.1 :: keysOf l := rfl

theorem keysOf_append {α : Type} {l1 l2 : List (String × α)} :
    keysOf (l1 ++ l2) = keysOf l1 ++ keysOf l2 := by
  simp [keysOf]

theorem keysOf_insertGrouped {g : List (String × List BusyInterval)} {u : String}
    {iv : BusyInterval} :
    keysOf (insertGrouped g u iv) =
      if u ∈ keysOf g then keysOf g else keysOf g ++ [u] := by
  induction g with
  | nil => simp [insertGrouped, keysOf]
  | cons hd tl ih =>
    by_cases hk : hd.1 = u
    · simp [insertGrouped, hk, keysOf_cons, List.mem_cons]
    · have hne : ¬ u = hd.1 := fun h => hk h.symm
      simp only [insertGrouped, if_neg hk, keysOf_cons, List.mem_cons, hne, false_or]
      by_cases hm : u ∈ keysOf tl
      · rw [if_pos hm] at ih
        simp [ih, hm]
      · rw [if_neg hm] at ih
        simp [ih, hm]

theorem nodup_keysOf_insertGrouped {g : List (String × List BusyInterval)}
    {u : String} {iv : BusyInterval} (h : (keysOf g).Nodup) :
    (keysOf (insertGrouped g u iv)).Nodup := by
  rw [keysOf_insertGrouped]
  by_cases hm : u ∈ keysOf g
  · simpa [hm] using h
  · simp only [hm, if_false]
    rw [← List.concat_eq_append]
    exact h.concat hm

theorem nodup_keysOf_groupFold {blocks : List BusyBlockRow} :
    ∀ {acc : List (String × List BusyInterval)},
    (keysOf acc).Nodup → (keysOf (blocks.foldl groupStep acc)).Nodup := by
  induction blocks with
  | nil => intro acc h; simpa using h
  | cons b bs ih =>
    intro acc h
    simp only [List.foldl_cons]
    refine ih ?_
    unfold groupStep
    simp only [numberIsFinite, Bool.and_self, Bool.not_true, Bool.false_eq_true, if_false]
    by_cases hle : timeToMinutes b.end_time ≤ timeToMinutes b.start_time
    · simpa [hle] using h
    · rw [if_neg hle]
      exact nodup_keysOf_insertGrouped h

theorem nodup_keysOf_groupBlocks {blocks : List BusyBlockRow} :
    (keysOf (groupBlocks blocks)).Nodup :=
  nodup_keysOf_groupFold (by simp [keysOf])

theorem values_ne_nil_insertGrouped {g : List (String × List BusyInterval)}
    {u : String} {iv : BusyInterval} (h : ∀ e ∈ g, e.2 ≠ []) :
    ∀ e ∈ insertGrouped g u iv, e.2 ≠ [] := by
  induction g with
  | nil =>
    intro e he
    simp only [insertGrouped, List.mem_singleton] at he
    subst he
    simp
  | cons hd tl ih =>
    intro e he
    simp only [insertGrouped] at he
    by_cases hk : hd.1 = u
    · simp only [hk, if_pos rfl] at he
      rcases List.mem_cons.mp he with rfl | he
      · simp
      · exact h e (List.mem_cons_of_mem _ he)
    · rw [if_neg hk] at he
      rcases List.mem_cons.mp he with rfl | he
      · exact h _ (List.mem_cons_self _ _)
      · exact ih (fun e' he' => h e' (List.mem_cons_of_mem _ he')) e he

theorem values_ne_nil_groupFold {blocks : List BusyBlockRow} :
    ∀ {acc : List (String × List BusyInterval)},
    (∀ e ∈ acc, e.2 ≠ []) → ∀ e ∈ blocks.foldl groupStep acc, e.2 ≠ [] := by
  induction blocks with
  | nil => intro acc h; simpa using h
  | cons b bs ih =>
    intro acc h
    simp only [List.foldl_cons]
    refine ih ?_
    unfold groupStep
    simp only [numberIsFinite, Bool.and_self, Bool.not_true, Bool.false_eq_true, if_false]
    by_cases hle : timeToMinutes b.end_time ≤ timeToMinutes b.start_time
    · simpa [hle] using h
    · rw [if_neg hle]
      exact values_ne_nil_insertGrouped h

theorem values_ne_nil_groupBlocks {blocks : List BusyBlockRow} :
    ∀ e ∈ groupBlocks blocks, e.2 ≠ [] :=
  values_ne_nil_groupFold (by simp)

/-- `groupStep` on a row read back from an `IntervalOK` interval re-inserts
exactly that interval. -/
theorem groupStep_rebuild {g : List (String × List BusyInterval)} {u : String}
    {iv : BusyInterval} (h : IntervalOK iv) :
    groupStep g (BusyBlockRow.mk u iv.start_time iv.end_time) = insertGrouped g u iv := by
  unfold groupStep
  simp only [numberIsFinite, Bool.and_self, Bool.not_true, Bool.false_eq_true, if_false]
  rcases h with ⟨hpos, hs, he⟩
  have hnle : ¬ timeToMinutes iv.end_time ≤ timeToMinutes iv.start_time := by
    rw [hs, he]
    exact (lt_iff_le_not_le.mp hpos).2
  rw [if_neg hnle]
  congr 1
  cases iv
  simp only at hs he ⊢
  rw [hs, he]

theorem insertGrouped_notMem {g : List (String × List BusyInterval)} {u : String}
    {iv : BusyInterval} (h : u ∉ keysOf g) :
    insertGrouped g u iv = g ++ [(u, [iv])] := by
  induction g with
  | nil => simp [insertGrouped]
  | cons hd tl ih =>
    simp only [keysOf, List.map_cons, List.mem_cons] at h
    push_neg at h
    have hk : ¬ hd.1 = u := fun hh => h.1 hh.symm
    simp only [insertGrouped, if_neg hk, List.cons_append]
    rw [ih]
    intro hm
    exact h.2 hm

theorem insertGrouped_append_last {g : List (String × List BusyInterval)} {u : String}
    {l : List BusyInterval} {iv : BusyInterval} (h : u ∉ keysOf g) :
    insertGrouped (g ++ [(u, l)]) u iv = g ++ [(u, l ++ [iv])] := by
  induction g with
  | nil => simp [insertGrouped]
  | cons hd tl ih =>
    simp only [keysOf, List.map_cons, List.mem_cons] at h
    push_neg at h
    have hk : ¬ hd.1 = u := fun hh => h.1 hh.symm
    rw [List.cons_append]
    simp only [insertGrouped, if_neg hk]
    rw [List.cons_append, ih h.2]

/-- Folding the rows of one user's interval run into the grouping map appends
those intervals to that user's (fresh, last) entry. -/
theorem groupFold_run {u : String} :
    ∀ (ivs : List BusyInterval) (acc : List (String × List BusyInterval))
    (l : List BusyInterval),
    u ∉ keysOf acc → (∀ iv ∈ ivs, IntervalOK iv) →
    List.foldl groupStep (acc ++ [(u, l)])
      (ivs.map (fun i => BusyBlockRow.mk u i.start_time i.end_time)) =
      acc ++ [(u, l ++ ivs)] := by
  intro ivs
  induction ivs with
  | nil => intro acc l _ _; simp
  | cons iv ivs' ih =>
    intro acc l hu hok
    simp only [List.map_cons, List.foldl_cons]
    rw [groupStep_rebuild (hok iv (List.mem_cons_self _ _)),
      insertGrouped_append_last hu]
    rw [ih acc (l ++ [iv]) hu (fun i hi => hok i (List.mem_cons_of_mem _ hi))]
    simp

/-- Folding the flattened rows of a well-formed merged map regroups it
exactly. -/
theorem groupFold_flatten :
    ∀ (M acc : List (String × List BusyInterval)),
    (keysOf (acc ++ M)).Nodup →
    (∀ e ∈ M, e.2 ≠ []) →
    (∀ e ∈ M, ∀ i ∈ e.2, IntervalOK i) →
    List.foldl groupStep acc (flattenMerged M) = acc ++ M := by
  intro M
  induction M with
  | nil => intro acc _ _ _; simp [flattenMerged]
  | cons e M' ih =>
    intro acc hnodup hne hok
    have hsplit : flattenMerged (e :: M') =
        (e.2.map (fun i => BusyBlockRow.mk e.1 i.start_time i.end_time)) ++
          flattenMerged M' := by
      simp [flattenMerged]
    rw [hsplit, List.foldl_append]
    have hkeys : keysOf (acc ++ e :: M') = keysOf acc ++ e.1 :: keysOf M' := by
      simp [keysOf]
    have hu_acc : e.1 ∉ keysOf acc := by
      rw [hkeys] at hnodup
      intro hm
      rcases List.nodup_append.mp hnodup with ⟨_, _, hdisj⟩
      exact hdisj hm (List.mem_cons_self _ _)
    obtain ⟨iv, ivs', hivs⟩ : ∃ iv ivs', e.2 = iv :: ivs' := by
      rcases e2 : e.2 with _ | ⟨iv, ivs'⟩
      · exact absurd e2 (hne e (List.mem_cons_self _ _))
      · exact ⟨iv, ivs', rfl⟩
    have hokE : ∀ i ∈ e.2, IntervalOK i := hok e (List.mem_cons_self _ _)
    have hrun : List.foldl groupStep acc
        (e.2.map (fun i => BusyBlockRow.mk e.1 i.start_time i.end_time)) =
        acc ++ [(e.1, e.2)] := by
      rw [hivs]
      simp only [List.map_cons, List.foldl_cons]
      rw [groupStep_rebuild (hokE iv (by rw [hivs]; exact List.mem_cons_self _ _)),
        insertGrouped_notMem hu_acc]
      rw [groupFold_run ivs' acc [iv] hu_acc
        (fun i hi => hokE i (by rw [hivs]; exact List.mem_cons_of_mem _ hi))]
      simp
    rw [hrun]
    have hcons : acc ++ [(e.1, e.2)] = acc ++ [e] := by
      cases e; rfl
    rw [hcons]
    have hassoc : (acc ++ [e]) ++ M' = acc ++ e :: M' := by simp
    rw [ih (acc ++ [e]) (by rw [hassoc]; exact hnodup)
      (fun e' he' => hne e' (List.mem_cons_of_mem _ he'))
      (fun e' he' => hok e' (List.mem_cons_of_mem _ he')), hassoc]

/-- Separation chains are pairwise separations when intervals have positive
length. -/
theorem chainSep_pairwise {l : List BusyInterval}
    (hp : ∀ i ∈ l, i.startMinutes < i.endMinutes)
    (h : l.Chain' (fun a b => a.endMinutes < b.startMinutes)) :
    l.Pairwise (fun a b => a.endMinutes < b.startMinutes) := by
  induction l with
  | nil => simp
  | cons a t ih =>
    rw [List.chain'_cons'] at h
    have ht := ih (fun i hi => hp i (List.mem_cons_of_mem _ hi)) h.2
    rw [List.pairwise_cons]
    refine ⟨?_, ht⟩
    intro c hc
    cases t with
    | nil => simp at hc
    | cons b t' =>
      have hab : a.endMinutes < b.startMinutes := h.1 b rfl
      rcases List.mem_cons.mp hc with rfl | hc'
      · exact hab
      · have hbc := (List.pairwise_cons.mp ht).1 c hc'
        have hbpos := hp b (List.mem_cons_of_mem _ (List.mem_cons_self _ _))
        exact lt_trans hab (lt_trans hbpos hbc)

/-- The sweep is the identity on an already separated list. -/
theorem sweepRev_fix :
    ∀ (rest acc : List BusyInterval),
    rest.Chain' (fun a b => a.endMinutes < b.startMinutes) →
    (∀ a, acc.head? = some a → ∀ b, rest.head? = some b →
      a.endMinutes < b.startMinutes) →
    sweepRev acc rest = acc.reverse ++ rest := by
  intro rest
  induction rest with
  | nil => intro acc _ _; rw [sweepRev]; simp
  | cons i rest' ih =>
    intro acc hchain hlink
    rw [List.chain'_cons'] at hchain
    cases acc with
    | nil =>
      rw [sweepRev, ih [i] hchain.2 ?_]
      · simp
      · intro a ha b hb
        simp only [List.head?_cons, Option.some.injEq] at ha
        exact ha ▸ hchain.1 b hb
    | cons last tail =>
      have hsep : last.endMinutes < i.startMinutes := hlink last rfl i rfl
      have hnle : ¬ i.startMinutes ≤ last.endMinutes := (lt_iff_le_not_le.mp hsep).2
      rw [sweepRev, if_neg hnle, ih (i :: last :: tail) hchain.2 ?_]
      · simp
      · intro a ha b hb
        simp only [List.head?_cons, Option.some.injEq] at ha
        exact ha ▸ hchain.1 b hb

/-- `mergeUser` is the identity on a positive-length, separated list. -/
theorem mergeUser_fix {ivs : List BusyInterval}
    (hp : ∀ i ∈ ivs, i.startMinutes < i.endMinutes)
    (hchain : ivs.Chain' (fun a b => a.endMinutes < b.startMinutes)) :
    mergeUser ivs = ivs := by
  have hpw := chainSep_pairwise hp hchain
  have hsorted : ivs.Pairwise intervalSortsBefore := by
    refine hpw.imp_of_mem ?_
    intro a b ha _ hab
    exact Or.inl (lt_trans (hp a ha) hab)
  unfold mergeUser
  rw [List.Sorted.insertionSort_eq hsorted, sweepRev_fix ivs [] hchain (by simp)]
  simp

theorem sweepRev_ne_nil :
    ∀ (rest acc : List BusyInterval), acc ≠ [] → sweepRev acc rest ≠ [] := by
  intro rest
  induction rest with
  | nil =>
    intro acc h
    rw [sweepRev]
    simpa using h
  | cons i rest' ih =>
    intro acc h
    cases acc with
    | nil => exact absurd rfl h
    | cons last tail =>
      rw [sweepRev]
      by_cases hO : i.startMinutes ≤ last.endMinutes
      · rw [if_pos hO]
        by_cases hE : last.endMinutes < i.endMinutes
        · rw [if_pos hE]; exact ih _ (by simp)
        · rw [if_neg hE]; exact ih _ (by simp)
      · rw [if_neg hO]; exact ih _ (by simp)

theorem mergeUser_ne_nil {ivs : List BusyInterval} (h : ivs ≠ []) :
    mergeUser ivs ≠ [] := by
  unfold mergeUser
  have hsne : ivs.insertionSort intervalSortsBefore ≠ [] := by
    intro hs
    have hperm := List.perm_insertionSort intervalSortsBefore ivs
    rw [hs] at hperm
    exact h hperm.symm.eq_nil
  cases hs : ivs.insertionSort intervalSortsBefore with
  | nil => exact absurd hs hsne
  | cons i rest =>
    rw [sweepRev]
    exact sweepRev_ne_nil rest [i] (by simp)

/-- C5: interval merging is idempotent — re-reading each produced interval's
`start_time`/`end_time` per user and merging again yields exactly the same
map of intervals. -/
theorem mergeBusyIntervals_idempotent (blocks : List BusyBlockRow) :
    mergeBusyIntervals (flattenMerged (mergeBusyIntervals blocks)) =
      mergeBusyIntervals blocks := by
  set M := mergeBusyIntervals blocks with hM
  have hkeysM : keysOf M = keysOf (groupBlocks blocks) := by
    rw [hM]
    unfold mergeBusyIntervals
    simp [keysOf, List.map_map, Function.comp]
  have hnodup : (keysOf M).Nodup := by
    rw [hkeysM]; exact nodup_keysOf_groupBlocks
  have hprops : ∀ e ∈ M, e.2 ≠ [] ∧ (∀ i ∈ e.2, IntervalOK i) ∧
      e.2.Chain' (fun a b => a.endMinutes < b.startMinutes) := by
    intro e he
    rw [hM] at he
    unfold mergeBusyIntervals at he
    obtain ⟨g, hg, hEq⟩ := List.mem_map.mp he
    have hok0 : ∀ i ∈ g.2, IntervalOK i := fun i hi => groupBlocks_values g hg i hi
    have hne0 : g.2 ≠ [] := values_ne_nil_groupBlocks g hg
    rcases mergeUser_spec hok0 with ⟨hall, hchain⟩
    subst hEq
    exact ⟨mergeUser_ne_nil hne0, hall, hchain⟩
  have hgroup : groupBlocks (flattenMerged M) = M := by
    unfold groupBlocks
    exact groupFold_flatten M [] (by simpa using hnodup)
      (fun e he => (hprops e he).1) (fun e he => (hprops e he).2.1)
  show mergeBusyIntervals (flattenMerged M) = M
  unfold mergeBusyIntervals
  rw [hgroup]
  have hid : ∀ e ∈ M, ((e.1, mergeUser e.2) : String × List BusyInterval) = e := by
    intro e he
    rcases hprops e he with ⟨_, hok, hchain⟩
    have hfix : mergeUser e.2 = e.2 :=
      mergeUser_fix (fun i hi => (hok i hi).1) hchain
    rw [hfix]
  calc M.map (fun g => (g.1, mergeUser g.2)) = M.map id := List.map_congr_left hid
  _ = M := List.map_id M

/-! Lemmas about ICS normalization. -/

/-- An event whose instants are missing or inverted contributes no blocks. -/
theorem icsEventBlocks_bad {e : ParsedEvent} (h : ¬ goodInstantEvent e) :
    icsEventBlocks e = [] := by
  unfold goodInstantEvent at h
  unfold icsEventBlocks
  split
  · rfl
  · split
    · next s t hs hstop =>
      rw [hs, hstop] at h
      simp only [decide_eq_true_eq] at h
      have hts : t.epochMs ≤ s.epochMs := le_of_not_lt h
      simp [hts]
    · rfl

/-- C3 counterexample: a `VEVENT` running 23:00-01:00 Chicago time (crossing
midnight; instants 2025-06-05T04:00Z and 2025-06-05T06:00Z) is emitted, not
dropped, and its block has `end_time <= start_time` on the clock-of-day
scale. -/
theorem parseIcs_midnight_counterexample :
    parseIcsToBusyBlocks
      [⟨some "VEVENT", some ⟨1749096000000⟩, some ⟨1749103200000⟩, none, none⟩] =
      [⟨3, "23:00:00", "01:00:00"⟩] ∧
    timeToMinutes "01:00:00" ≤ timeToMinutes "23:00:00" := by
  constructor
  · decide
  · decide

/-- C3 (amended): events whose end instant is at most their start instant are
dropped — removing them (together with events missing an instant, which are
likewise dropped) never changes the output — but the emitted blocks of a
midnight-crossing event carry wrapped clock strings with
`end_time <= start_time` rather than being dropped. -/
theorem parseIcs_drops_inverted_events (events : List ParsedEvent) :
    parseIcsToBusyBlocks events =
      parseIcsToBusyBlocks (events.filter goodInstantEvent) := by
  unfold parseIcsToBusyBlocks
  suffices h : ∀ (evs : List ParsedEvent) (acc : List BusyBlockInput),
      evs.foldl (fun blocks entry => blocks ++ icsEventBlocks entry) acc =
        (evs.filter goodInstantEvent).foldl
          (fun blocks entry => blocks ++ icsEventBlocks entry) acc by
    exact h events []
  intro evs
  induction evs with
  | nil => intro acc; rfl
  | cons e evs' ih =>
    intro acc
    by_cases hg : goodInstantEvent e
    · rw [List.filter_cons_of_pos hg]
      simp only [List.foldl_cons]
      exact ih _
    · rw [List.filter_cons_of_neg (by simpa using hg)]
      simp only [List.foldl_cons, icsEventBlocks_bad hg, List.append_nil]
      exact ih _

/-- The per-event weekday fold only emits blocks with weekday in `[1, 5]`. -/
theorem icsWeekdayFold_range {startTime endTime : String} :
    ∀ (ws : List ℤ) (acc : List BusyBlockInput),
    (∀ b ∈ acc, 1 ≤ b.weekday ∧ b.weekday ≤ 5) →
    ∀ b ∈ ws.foldl
        (fun acc weekday =>
          if weekday < WEEKDAY_MIN ∨ WEEKDAY_MAX < weekday then acc
          else acc ++ [⟨weekday, startTime, endTime⟩]) acc,
      1 ≤ b.weekday ∧ b.weekday ≤ 5 := by
  intro ws
  induction ws with
  | nil => intro acc hacc b hb; exact hacc b hb
  | cons w ws' ih =>
    intro acc hacc b hb
    simp only [List.foldl_cons] at hb
    by_cases hrange : w < WEEKDAY_MIN ∨ WEEKDAY_MAX < w
    · rw [if_pos hrange] at hb
      exact ih acc hacc b hb
    · rw [if_neg hrange] at hb
      push_neg at hrange
      refine ih _ ?_ b hb
      intro b' hb'
      rcases List.mem_append.mp hb' with h | h
      · exact hacc b' h
      · simp only [List.mem_singleton] at h
        subst h
        unfold WEEKDAY_MIN WEEKDAY_MAX at hrange
        exact ⟨hrange.1, hrange.2⟩

/-- The per-event weekday fold drops weekend weekdays entirely. -/
theorem icsWeekdayFold_weekend {startTime endTime : String} :
    ∀ (ws : List ℤ), (∀ w ∈ ws, w = 6 ∨ w = 7) →
    ∀ (acc : List BusyBlockInput),
    ws.foldl
      (fun acc weekday =>
        if weekday < WEEKDAY_MIN ∨ WEEKDAY_MAX < weekday then acc
        else acc ++ [⟨weekday, startTime, endTime⟩]) acc = acc := by
  intro ws hws
  induction ws with
  | nil => intro acc; rfl
  | cons w ws' ih =>
    intro acc
    have hrange : w < WEEKDAY_MIN ∨ WEEKDAY_MAX < w := by
      rcases hws w (List.mem_cons_self _ _) with rfl | rfl
      · right; unfold WEEKDAY_MAX; omega
      · right; unfold WEEKDAY_MAX; omega
    simp only [List.foldl_cons, if_pos hrange]
    exact ih (fun w' hw' => hws w' (List.mem_cons_of_mem _ hw')) acc

/-- In-range weekday invariant of the per-event block emitter. -/
theorem icsEventBlocks_weekday_range {e : ParsedEvent} {b : BusyBlockInput}
    (hb : b ∈ icsEventBlocks e) : 1 ≤ b.weekday ∧ b.weekday ≤ 5 := by
  unfold icsEventBlocks at hb
  split at hb
  · simp at hb
  · split at hb
    · split at hb
      · simp at hb
      · split at hb
        · simp at hb
        · dsimp only at hb
          split at hb
          · simp at hb
          · exact icsWeekdayFold_range _ _ (by simp) b hb
    · simp at hb

/-- Weekend-only weekday sets produce no blocks. -/
theorem icsEventBlocks_weekend {e : ParsedEvent}
    (h : ∀ w ∈ extractWeekdays e, w = 6 ∨ w = 7) : icsEventBlocks e = [] := by
  unfold icsEventBlocks
  split
  · rfl
  · split
    · split
      · rfl
      · split
        · rfl
        · dsimp only
          split
          · rfl
          · exact icsWeekdayFold_weekend _ h []
    · rfl

/-- C6: every busy block emitted by `parseIcsToBusyBlocks` has weekday in the
business-week range `[1, 5]`, and an event all of whose resolved weekdays
are Saturday or Sunday (6 or 7) produces zero busy blocks. -/
theorem parseIcs_weekday_range :
    (∀ (events : List ParsedEvent) (b : BusyBlockInput),
      b ∈ parseIcsToBusyBlocks events → 1 ≤ b.weekday ∧ b.weekday ≤ 5) ∧
    (∀ e : ParsedEvent, (∀ w ∈ extractWeekdays e, w = 6 ∨ w = 7) →
      parseIcsToBusyBlocks [e] = []) := by
  constructor
  · intro events b hb
    unfold parseIcsToBusyBlocks at hb
    suffices hfold : ∀ (evs : List ParsedEvent) (acc : List BusyBlockInput),
        (∀ b' ∈ acc, 1 ≤ b'.weekday ∧ b'.weekday ≤ 5) →
        ∀ b' ∈ evs.foldl (fun blocks entry => blocks ++ icsEventBlocks entry) acc,
          1 ≤ b'.weekday ∧ b'.weekday ≤ 5 by
      exact hfold events [] (by simp) b hb
    intro evs
    induction evs with
    | nil => intro acc hacc b' hb'; exact hacc b' hb'
    | cons e evs' ih =>
      intro acc hacc b' hb'
      simp only [List.foldl_cons] at hb'
      refine ih _ ?_ b' hb'
      intro b'' hb''
      rcases List.mem_append.mp hb'' with h | h
      · exact hacc b'' h
      · exact icsEventBlocks_weekday_range h
  · intro e h
    unfold parseIcsToBusyBlocks
    simp [icsEventBlocks_weekend h]

/-- C6 witness: the Tuesday block of a Tue/Thu recurrence is in range, and a
Saturday-only recurrence (0-based code 5, engine weekday 6) yields no
blocks. -/
theorem parseIcs_weekday_range_witness :
    ((⟨2, "10:00:00", "11:00:00"⟩ : BusyBlockInput) ∈
      parseIcsToBusyBlocks
        [⟨some "VEVENT", some ⟨1748962800000⟩, some ⟨1748966400000⟩, none,
          some (.arr [.num 1, .num 3])⟩] ∧
      (1 ≤ (⟨2, "10:00:00", "11:00:00"⟩ : BusyBlockInput).weekday ∧
        (⟨2, "10:00:00", "11:00:00"⟩ : BusyBlockInput).weekday ≤ 5)) ∧
    ((∀ w ∈ extractWeekdays
        ⟨some "VEVENT", some ⟨1748962800000⟩, some ⟨1748966400000⟩, none,
          some (.scalar (.num 5))⟩, w = 6 ∨ w = 7) ∧
      parseIcsToBusyBlocks
        [⟨some "VEVENT", some ⟨1748962800000⟩, some ⟨1748966400000⟩, none,
          some (.scalar (.num 5))⟩] = []) := by
  refine ⟨⟨by decide, ?_⟩, ⟨by decide, ?_⟩⟩
  · exact parseIcs_weekday_range.1
      [⟨some "VEVENT", some ⟨1748962800000⟩, some ⟨1748966400000⟩, none,
        some (.arr [.num 1, .num 3])⟩]
      ⟨2, "10:00:00", "11:00:00"⟩ (by decide)
  · exact parseIcs_weekday_range.2
      ⟨some "VEVENT", some ⟨1748962800000⟩, some ⟨1748966400000⟩, none,
        some (.scalar (.num 5))⟩ (by decide)

/-! Lemmas about the recurrence resolver. -/

theorem addToSet_mem {s : List ℤ} {n x : ℤ} :
    x ∈ addToSet s n ↔ x ∈ s ∨ x = n := by
  unfold addToSet
  by_cases h : n ∈ s
  · rw [if_pos h]
    constructor
    · exact Or.inl
    · rintro (hx | rfl)
      · exact hx
      · exact h
  · rw [if_neg h]
    simp

theorem addToSet_nodup {s : List ℤ} {n : ℤ} (h : s.Nodup) :
    (addToSet s n).Nodup := by
  unfold addToSet
  by_cases hm : n ∈ s
  · rwa [if_pos hm]
  · rw [if_neg hm, ← List.concat_eq_append]
    exact h.concat hm

theorem foldl_addToSet_mem :
    ∀ (l s : List ℤ) (x : ℤ), x ∈ l.foldl addToSet s ↔ x ∈ s ∨ x ∈ l := by
  intro l
  induction l with
  | nil => intro s x; simp
  | cons c l' ih =>
    intro s x
    simp only [List.foldl_cons]
    rw [ih, addToSet_mem]
    simp only [List.mem_cons]
    tauto

theorem foldl_addToSet_nodup :
    ∀ (l s : List ℤ), s.Nodup → (l.foldl addToSet s).Nodup := by
  intro l
  induction l with
  | nil => intro s h; simpa using h
  | cons c l' ih =>
    intro s h
    simp only [List.foldl_cons]
    exact ih _ (addToSet_nodup h)

theorem foldl_addToSet_ne_nil {l : List ℤ} (h : l ≠ []) :
    l.foldl addToSet [] ≠ [] := by
  rcases l with _ | ⟨c, l'⟩
  · exact absurd rfl h
  · have : c ∈ (c :: l').foldl addToSet [] := by
      rw [foldl_addToSet_mem]
      exact Or.inr (List.mem_cons_self _ _)
    exact List.ne_nil_of_mem this

/-- The `normalized` set of `extractWeekdays` is the insertion-ordered
deduplication of the numeric weekday codes shifted by one. -/
theorem normalizedWeekdays_eq (bw : Byweekday) :
    normalizedWeekdays bw =
      ((byweekdayCodes bw).map (fun c => c + 1)).foldl addToSet [] := by
  unfold normalizedWeekdays byweekdayCodes
  suffices h : ∀ (entries : List ByweekdayVal) (s : List ℤ),
      entries.foldl
        (fun s entry =>
          match entry with
          | .num n => addToSet s (n + 1)
          | .obj (some w) => addToSet s (w + 1)
          | .obj none => s) s =
      ((entries.filterMap
        (fun v =>
          match v with
          | .num n => some n
          | .obj w => w)).map (fun c => c + 1)).foldl addToSet s by
    exact h (byweekdayList bw) []
  intro entries
  induction entries with
  | nil => intro s; rfl
  | cons v vs ih =>
    intro s
    rcases v with n | w
    · simp only [List.foldl_cons, List.filterMap_cons, List.map_cons]
      exact ih _
    · rcases w with _ | w
      · simp only [List.foldl_cons, List.filterMap_cons]
        exact ih _
      · simp only [List.foldl_cons, List.filterMap_cons, List.map_cons]
        exact ih _

/-- The Chicago weekday lookup always succeeds with a value in `[1, 7]`. -/
theorem getWeekdayInZone_spec (d : JsDate) :
    ∃ w, getWeekdayInZone d = some w ∧ 1 ≤ w ∧ w ≤ 7 := by
  unfold getWeekdayInZone chicagoWeekdayLabel
  rcases h : (weekdayNumOfDay (chicagoDay d)).toNat with _ | _ | _ | _ | _ | _ | n
  · exact ⟨7, by decide, by omega, by omega⟩
  · exact ⟨1, by decide, by omega, by omega⟩
  · exact ⟨2, by decide, by omega, by omega⟩
  · exact ⟨3, by decide, by omega, by omega⟩
  · exact ⟨4, by decide, by omega, by omega⟩
  · exact ⟨5, by decide, by omega, by omega⟩
  · exact ⟨6, by simp [WEEKDAY_LOOKUP], by omega, by omega⟩

/-- C4: `extractWeekdays` returns the deduplicated recurrence weekday codes
incremented by 1 when the descriptor carries at least one numeric code;
falls back to the single Chicago weekday of the start instant when the set
is empty or absent; returns the empty set when that also fails; and
consequently a Tue/Thu recurring event plus a one-off Wednesday event
normalize into exactly three busy blocks sharing the derived time-of-day. -/
theorem extractWeekdays_spec (e : ParsedEvent) (bw : Byweekday) (d : JsDate) :
    (e.byweekday = some bw → byweekdayCodes bw ≠ [] →
      ((∀ w, w ∈ extractWeekdays e ↔ ∃ c ∈ byweekdayCodes bw, w = c + 1) ∧
        (extractWeekdays e).Nodup)) ∧
    (e.byweekday = none ∨ (e.byweekday = some bw ∧ byweekdayCodes bw = []) →
      e.start = some d →
      ∃ w, getWeekdayInZone d = some w ∧ extractWeekdays e = [w]) ∧
    (e.byweekday = none ∨ (e.byweekday = some bw ∧ byweekdayCodes bw = []) →
      e.start = none → extractWeekdays e = []) ∧
    parseIcsToBusyBlocks
      [⟨some "VEVENT", some ⟨1748962800000⟩, some ⟨1748966400000⟩, none,
        some (.arr [.num 1, .num 3])⟩,
       ⟨some "VEVENT", some ⟨1749049200000⟩, some ⟨1749052800000⟩, none, none⟩] =
      [⟨2, "10:00:00", "11:00:00"⟩, ⟨4, "10:00:00", "11:00:00"⟩,
       ⟨3, "10:00:00", "11:00:00"⟩] := by
  refine ⟨?_, ?_, ?_, by decide⟩
  · intro hbw hcodes
    have hne : normalizedWeekdays bw ≠ [] := by
      rw [normalizedWeekdays_eq]
      exact foldl_addToSet_ne_nil (by simpa using hcodes)
    have hres : extractWeekdays e = normalizedWeekdays bw := by
      unfold extractWeekdays
      rw [hbw]
      rw [if_pos hne]
    rw [hres, normalizedWeekdays_eq]
    constructor
    · intro w
      rw [foldl_addToSet_mem]
      simp only [List.mem_nil_iff, false_or, List.mem_map]
      constructor
      · rintro ⟨c, hc, rfl⟩
        exact ⟨c, hc, rfl⟩
      · rintro ⟨c, hc, rfl⟩
        exact ⟨c, hc, rfl⟩
    · exact foldl_addToSet_nodup _ _ (List.nodup_nil)
  · intro hrule hstart
    have hempty : (match e.byweekday with
        | some bw' => normalizedWeekdays bw'
        | none => []) = [] := by
      rcases hrule with hnone | ⟨hsome, hcodes⟩
      · rw [hnone]
      · rw [hsome]
        show normalizedWeekdays bw = []
        rw [normalizedWeekdays_eq, hcodes]
        rfl
    obtain ⟨w, hw, hw1, _⟩ := getWeekdayInZone_spec d
    refine ⟨w, hw, ?_⟩
    unfold extractWeekdays
    rw [hempty, if_neg (by simp), hstart]
    dsimp only
    rw [hw]
    dsimp only
    rw [if_neg (by omega)]
  · intro hrule hstart
    have hempty : (match e.byweekday with
        | some bw' => normalizedWeekdays bw'
        | none => []) = [] := by
      rcases hrule with hnone | ⟨hsome, hcodes⟩
      · rw [hnone]
      · rw [hsome]
        show normalizedWeekdays bw = []
        rw [normalizedWeekdays_eq, hcodes]
        rfl
    unfold extractWeekdays
    rw [hempty, if_neg (by simp), hstart]

/-- C4 witness: the Tue/Thu descriptor yields weekdays 2 and 4 without
duplicates, the Wednesday one-off falls back to weekday 3, and the combined
normalization emits the three expected blocks. -/
theorem extractWeekdays_spec_witness :
    (2 : ℤ) ∈ extractWeekdays
      ⟨some "VEVENT", some ⟨1748962800000⟩, some ⟨1748966400000⟩, none,
        some (.arr [.num 1, .num 3])⟩ ∧
    (extractWeekdays
      ⟨some "VEVENT", some ⟨1748962800000⟩, some ⟨1748966400000⟩, none,
        some (.arr [.num 1, .num 3])⟩).Nodup ∧
    extractWeekdays
      ⟨some "VEVENT", some ⟨1749049200000⟩, some ⟨1749052800000⟩, none, none⟩ = [3] ∧
    parseIcsToBusyBlocks
      [⟨some "VEVENT", some ⟨1748962800000⟩, some ⟨1748966400000⟩, none,
        some (.arr [.num 1, .num 3])⟩,
       ⟨some "VEVENT", some ⟨1749049200000⟩, some ⟨1749052800000⟩, none, none⟩] =
      [⟨2, "10:00:00", "11:00:00"⟩, ⟨4, "10:00:00", "11:00:00"⟩,
       ⟨3, "10:00:00", "11:00:00"⟩] := by
  have h1 := extractWeekdays_spec
    ⟨some "VEVENT", some ⟨1748962800000⟩, some ⟨1748966400000⟩, none,
      some (.arr [.num 1, .num 3])⟩
    (.arr [.num 1, .num 3]) ⟨0⟩
  have h2 := extractWeekdays_spec
    ⟨some "VEVENT", some ⟨1749049200000⟩, some ⟨1749052800000⟩, none, none⟩
    (.arr []) ⟨1749049200000⟩
  have hc1 := h1.1 rfl (by decide)
  obtain ⟨w, hw, hew⟩ := h2.2.1 (Or.inl rfl) rfl
  have hw3 : w = 3 := by
    have hg : getWeekdayInZone (⟨1749049200000⟩ : JsDate) = some 3 := by decide
    rw [hg] at hw
    exact (Option.some.inj hw).symm
  refine ⟨?_, hc1.2, ?_, h1.2.2.2⟩
  · exact (hc1.1 2).mpr ⟨1, by decide, by decide⟩
  · rw [hew, hw3]

/-! Lemmas about the time-parameter regex. -/

theorem char_eq_iff_toNat {c d : Char} : c = d ↔ c.toNat = d.toNat := by
  constructor
  · intro h; rw [h]
  · intro h
    have h2 := congrArg Char.ofNat h
    rwa [Char.ofNat_toNat, Char.ofNat_toNat] at h2

theorem isDigitChar_iff {c : Char} :
    isDigitChar c = true ↔ 48 ≤ c.toNat ∧ c.toNat ≤ 57 := by
  unfold isDigitChar
  rw [decide_eq_true_eq]
  exact Iff.rfl

theorem digitsToNat_pair {a b : Char} (ha : isDigitChar a) (hb : isDigitChar b) :
    digitsToNat [a, b] = (a.toNat - 48) * 10 + (b.toNat - 48) := by
  rw [isDigitChar_iff] at ha hb
  unfold digitsToNat digitVal
  simp only [List.foldl_cons, List.foldl_nil]
  have ha' : '0' ≤ a ∧ a ≤ '9' := ⟨ha.1, ha.2⟩
  have hb' : '0' ≤ b ∧ b ≤ '9' := ⟨hb.1, hb.2⟩
  rw [if_pos ha', if_pos hb']
  simp only [Option.getD_some]
  ring

theorem hourGroupOK_iff {h : String} : hourGroupOK h = true ↔ specHourStr h := by
  have t0 : ('0').toNat = 48 := rfl
  have t1 : ('1').toNat = 49 := rfl
  have t2 : ('2').toNat = 50 := rfl
  have t3 : ('3').toNat = 51 := rfl
  unfold hourGroupOK specHourStr
  rcases hd : h.data with _ | ⟨a, _ | ⟨b, _ | ⟨c, rest⟩⟩⟩
  · simp [hd]
  · simp only [hd]
    constructor
    · intro hdig
      exact Or.inl ⟨a, rfl, hdig⟩
    · rintro (⟨x, hx, hdig⟩ | ⟨x, y, hxy, _⟩)
      · rw [List.cons.injEq] at hx
        exact hx.1 ▸ hdig
      · simp at hxy
  · simp only [hd]
    constructor
    · intro hcond
      refine Or.inr ⟨a, b, rfl, ?_, ?_, ?_⟩
      · rcases Bool.or_eq_true _ _ |>.mp hcond with h1 | h2
        · rcases Bool.and_eq_true _ _ |>.mp h1 with ⟨h1a, _⟩
          rcases Bool.or_eq_true _ _ |>.mp h1a with hz | hz <;>
            rw [decide_eq_true_eq] at hz <;>
            rw [isDigitChar_iff] <;>
            rw [char_eq_iff_toNat] at hz <;>
            omega
        · rcases Bool.and_eq_true _ _ |>.mp h2 with ⟨h2a, _⟩
          rw [decide_eq_true_eq, char_eq_iff_toNat] at h2a
          rw [isDigitChar_iff]
          omega
      · rcases Bool.or_eq_true _ _ |>.mp hcond with h1 | h2
        · exact (Bool.and_eq_true _ _ |>.mp h1).2
        · rcases Bool.and_eq_true _ _ |>.mp h2 with ⟨_, h2b⟩
          rw [decide_eq_true_eq] at h2b
          have h2b' : 48 ≤ b.toNat ∧ b.toNat ≤ 51 := h2b
          rw [isDigitChar_iff]
          omega
      · rcases Bool.or_eq_true _ _ |>.mp hcond with h1 | h2
        · rcases Bool.and_eq_true _ _ |>.mp h1 with ⟨h1a, h1b⟩
          rcases Bool.or_eq_true _ _ |>.mp h1a with hz | hz <;>
            rw [decide_eq_true_eq, char_eq_iff_toNat] at hz <;>
            rw [digitsToNat_pair (by rw [isDigitChar_iff]; rw [isDigitChar_iff] at h1b; omega) h1b] <;>
            rw [isDigitChar_iff] at h1b <;>
            omega
        · rcases Bool.and_eq_true _ _ |>.mp h2 with ⟨h2a, h2b⟩
          rw [decide_eq_true_eq, char_eq_iff_toNat] at h2a
          rw [decide_eq_true_eq] at h2b
          have h2b' : 48 ≤ b.toNat ∧ b.toNat ≤ 51 := h2b
          rw [digitsToNat_pair (by rw [isDigitChar_iff]; omega)
            (by rw [isDigitChar_iff]; omega)]
          omega
    · rintro (⟨x, hx, _⟩ | ⟨x, y, hxy, hda, hdb, hval⟩)
      · simp at hx
      · rw [List.cons.injEq, List.cons.injEq] at hxy
        obtain ⟨rfl, rfl, -⟩ := hxy
        rw [digitsToNat_pair hda hdb] at hval
        rw [isDigitChar_iff] at hda hdb
        rw [Bool.or_eq_true, Bool.and_eq_true, Bool.and_eq_true, Bool.or_eq_true]
        by_cases h2 : a.toNat = 50
        · refine Or.inr ⟨?_, ?_⟩
          · rw [decide_eq_true_eq, char_eq_iff_toNat]
            exact h2
          · rw [decide_eq_true_eq]
            show 48 ≤ b.toNat ∧ b.toNat ≤ 51
            omega
        · refine Or.inl ⟨?_, ?_⟩
          · rcases Nat.lt_or_ge a.toNat 49 with hx48 | hx49
            · left
              rw [decide_eq_true_eq, char_eq_iff_toNat]
              omega
            · right
              rw [decide_eq_true_eq, char_eq_iff_toNat]
              omega
          · rw [isDigitChar_iff]
            omega
  · simp [hd]

theorem minuteGroupOK_iff {m : String} : minuteGroupOK m = true ↔ specMinuteStr m := by
  have t0 : ('0').toNat = 48 := rfl
  have t5 : ('5').toNat = 53 := rfl
  unfold minuteGroupOK specMinuteStr
  rcases hd : m.data with _ | ⟨a, _ | ⟨b, _ | ⟨c, rest⟩⟩⟩
  · simp [hd]
  · simp [hd]
  · simp only [hd]
    rw [Bool.and_eq_true, decide_eq_true_eq]
    constructor
    · rintro ⟨h5, hdb⟩
      have h5' : 48 ≤ a.toNat ∧ a.toNat ≤ 53 := h5
      refine ⟨a, b, rfl, ?_, hdb, ?_⟩
      · rw [isDigitChar_iff]
        rw [isDigitChar_iff] at hdb
        omega
      · rw [digitsToNat_pair (by rw [isDigitChar_iff]; omega) hdb]
        rw [isDigitChar_iff] at hdb
        omega
    · rintro ⟨x, y, hxy, hda, hdb, hval⟩
      rw [List.cons.injEq, List.cons.injEq] at hxy
      obtain ⟨rfl, rfl, -⟩ := hxy
      rw [digitsToNat_pair hda hdb] at hval
      rw [isDigitChar_iff] at hda hdb
      refine ⟨?_, ?_⟩
      · show 48 ≤ a.toNat ∧ a.toNat ≤ 53
        omega
      · rw [isDigitChar_iff]
        omega
  · simp [hd]

theorem parseTimeParam_isSome_iff (s : String) :
    (parseTimeParam (some s)).isSome = true ↔ specClockString s := by
  unfold parseTimeParam specClockString matchTimeRegex
  dsimp only
  by_cases hs : s = ""
  · subst hs
    rw [if_pos rfl]
    constructor
    · intro h; simp at h
    · intro h
      have : splitColon "" = [""] := by decide
      rw [this] at h
      exact absurd h (by simp)
  · rw [if_neg hs]
    rcases hsp : splitColon s with _ | ⟨h1, _ | ⟨m1, _ | ⟨s1, rest⟩⟩⟩
    · simp [hsp]
    · simp [hsp]
    · simp only [hsp]
      by_cases hg : hourGroupOK h1 && minuteGroupOK m1
      · rw [if_pos hg]
        rcases Bool.and_eq_true _ _ |>.mp hg with ⟨hh, hm⟩
        simp only [Option.isSome_some, true_iff]
        exact ⟨hourGroupOK_iff.mp hh, minuteGroupOK_iff.mp hm⟩
      · rw [if_neg hg]
        simp only [Option.isSome_none, Bool.false_eq_true, false_iff]
        intro hcon
        exact hg (Bool.and_eq_true _ _ |>.mpr
          ⟨hourGroupOK_iff.mpr hcon.1, minuteGroupOK_iff.mpr hcon.2⟩)
    · rcases rest with _ | ⟨x, rest2⟩
      · simp only [hsp]
        by_cases hg : hourGroupOK h1 && minuteGroupOK m1 && minuteGroupOK s1
        · rw [if_pos hg]
          rcases Bool.and_eq_true _ _ |>.mp hg with ⟨hg2, hsec⟩
          rcases Bool.and_eq_true _ _ |>.mp hg2 with ⟨hh, hm⟩
          simp only [Option.isSome_some, true_iff]
          exact ⟨hourGroupOK_iff.mp hh, minuteGroupOK_iff.mp hm,
            minuteGroupOK_iff.mp hsec⟩
        · rw [if_neg hg]
          simp only [Option.isSome_none, Bool.false_eq_true, false_iff]
          intro hcon
          exact hg (Bool.and_eq_true _ _ |>.mpr
            ⟨Bool.and_eq_true _ _ |>.mpr
              ⟨hourGroupOK_iff.mpr hcon.1, minuteGroupOK_iff.mpr hcon.2.1⟩,
             minuteGroupOK_iff.mpr hcon.2.2⟩)
      · simp [hsp]

/-- C9 counterexample: `parseTimeParam "9:05"` yields minutes 545 but the
label `"9:05AM"`, not `"9:05am"` as the claim states. -/
theorem parseTimeParam_label_case_counterexample :
    parseTimeParam (some "9:05") =
      some ⟨⟨32700, 60⟩, "9:05AM"⟩ ∧
    JsQ.val ⟨32700, 60⟩ = 545 ∧
    "9:05AM" ≠ "9:05am" := by
  refine ⟨by decide, ?_, by decide⟩
  unfold JsQ.val
  norm_num

/-- C9 (amended): `parseTimeParam` accepts exactly the clock strings of the
form `H:MM`, `HH:MM`, `H:MM:SS` or `HH:MM:SS` with hour 0-23, minute 0-59,
seconds 0-59; `parseTimeParam "9:05"` yields minutes 545 with label
`"9:05AM"` (uppercase meridiem), and `parseTimeParam "25:00"` is rejected. -/
theorem parseTimeParam_spec :
    (∀ s : String, ((parseTimeParam (some s)).isSome = true ↔ specClockString s)) ∧
    parseTimeParam (some "9:05") = some ⟨⟨32700, 60⟩, "9:05AM"⟩ ∧
    JsQ.val ⟨32700, 60⟩ = 545 ∧
    parseTimeParam (some "25:00") = none := by
  refine ⟨parseTimeParam_isSome_iff, by decide, ?_, by decide⟩
  unfold JsQ.val
  norm_num

/-! Lemmas about the classification maps. -/

theorem mapGet_mapSet_self {α : Type} {m : List (String × α)} {k : String} {v : α} :
    mapGet (mapSet m k v) k = some v := by
  induction m with
  | nil => simp [mapSet, mapGet]
  | cons hd tl ih =>
    unfold mapSet
    by_cases hk : hd.1 = k
    · rw [if_pos hk]
      unfold mapGet
      rw [if_pos hk]
    · rw [if_neg hk]
      unfold mapGet
      rw [if_neg hk]
      exact ih

theorem mapGet_mapSet_ne {α : Type} {m : List (String × α)} {k k' : String} {v : α}
    (h : k' ≠ k) : mapGet (mapSet m k v) k' = mapGet m k' := by
  induction m with
  | nil =>
    simp only [mapSet, mapGet]
    rw [if_neg (fun hh => h hh.symm)]
  | cons hd tl ih =>
    unfold mapSet
    by_cases hk : hd.1 = k
    · rw [if_pos hk]
      unfold mapGet
      by_cases hk' : hd.1 = k'
      · exact absurd (hk' ▸ hk) h
      · rw [if_neg hk', if_neg hk']
    · rw [if_neg hk]
      unfold mapGet
      by_cases hk' : hd.1 = k'
      · rw [if_pos hk', if_pos hk']
      · rw [if_neg hk', if_neg hk']
        exact ih

theorem scanStep_fst_ne {ref : JsQ} {uid v : String} {maps iv}
    (h : v ≠ uid) :
    mapGet (scanStep ref uid maps iv).1 v = mapGet maps.1 v := by
  unfold scanStep
  dsimp only
  split
  · split
    · exact mapGet_mapSet_ne h
    · split
      · exact mapGet_mapSet_ne h
      · rfl
  · rfl

theorem scanStep_snd_ne {ref : JsQ} {uid v : String} {maps iv}
    (h : v ≠ uid) :
    mapGet (scanStep ref uid maps iv).2 v = mapGet maps.2 v := by
  unfold scanStep
  dsimp only
  split
  · split
    · exact mapGet_mapSet_ne h
    · split
      · exact mapGet_mapSet_ne h
      · rfl
  · rfl

theorem scanStep_fst_self {ref : JsQ} {uid : String} {maps iv} :
    mapGet (scanStep ref uid maps iv).1 uid =
      scanBStep ref (mapGet maps.1 uid) iv := by
  unfold scanStep scanBStep
  dsimp only
  split
  · split
    · exact mapGet_mapSet_self
    · split
      · exact mapGet_mapSet_self
      · rfl
  · rfl

theorem scanStep_snd_self {ref : JsQ} {uid : String} {maps iv} :
    mapGet (scanStep ref uid maps iv).2 uid =
      scanNStep ref (mapGet maps.2 uid) iv := by
  unfold scanStep scanNStep
  dsimp only
  split
  · split
    · exact mapGet_mapSet_self
    · split
      · exact mapGet_mapSet_self
      · rfl
  · rfl

theorem innerFold_fst_ne {ref : JsQ} {uid v : String} (h : v ≠ uid) :
    ∀ (ivs : List BusyInterval) maps,
    mapGet (ivs.foldl (scanStep ref uid) maps).1 v = mapGet maps.1 v := by
  intro ivs
  induction ivs with
  | nil => intro maps; rfl
  | cons iv rest ih =>
    intro maps
    simp only [List.foldl_cons]
    rw [ih, scanStep_fst_ne h]

theorem innerFold_snd_ne {ref : JsQ} {uid v : String} (h : v ≠ uid) :
    ∀ (ivs : List BusyInterval) maps,
    mapGet (ivs.foldl (scanStep ref uid) maps).2 v = mapGet maps.2 v := by
  intro ivs
  induction ivs with
  | nil => intro maps; rfl
  | cons iv rest ih =>
    intro maps
    simp only [List.foldl_cons]
    rw [ih, scanStep_snd_ne h]

theorem innerFold_fst_self {ref : JsQ} {uid : String} :
    ∀ (ivs : List BusyInterval) maps,
    mapGet (ivs.foldl (scanStep ref uid) maps).1 uid =
      ivs.foldl (scanBStep ref) (mapGet maps.1 uid) := by
  intro ivs
  induction ivs with
  | nil => intro maps; rfl
  | cons iv rest ih =>
    intro maps
    simp only [List.foldl_cons]
    rw [ih, scanStep_fst_self]

theorem innerFold_snd_self {ref : JsQ} {uid : String} :
    ∀ (ivs : List BusyInterval) maps,
    mapGet (ivs.foldl (scanStep ref uid) maps).2 uid =
      ivs.foldl (scanNStep ref) (mapGet maps.2 uid) := by
  intro ivs
  induction ivs with
  | nil => intro maps; rfl
  | cons iv rest ih =>
    intro maps
    simp only [List.foldl_cons]
    rw [ih, scanStep_snd_self]

theorem buildMapsAux_notMem {ref : JsQ} {u : String} :
    ∀ (merged : List (String × List BusyInterval))
    (maps : List (String × BusyUntilEntry) × List (String × NextBusyEntry)),
    u ∉ keysOf merged →
    mapGet (merged.foldl
      (fun maps entry => entry.2.foldl (scanStep ref entry.1) maps) maps).1 u =
        mapGet maps.1 u ∧
    mapGet (merged.foldl
      (fun maps entry => entry.2.foldl (scanStep ref entry.1) maps) maps).2 u =
        mapGet maps.2 u := by
  intro merged
  induction merged with
  | nil => intro maps _; exact ⟨rfl, rfl⟩
  | cons e rest ih =>
    intro maps hu
    rw [keysOf_cons] at hu
    simp only [List.mem_cons] at hu
    push_neg at hu
    simp only [List.foldl_cons]
    rcases ih (e.2.foldl (scanStep ref e.1) maps) hu.2 with ⟨h1, h2⟩
    rw [h1, h2, innerFold_fst_ne hu.1, innerFold_snd_ne hu.1]
    exact ⟨rfl, rfl⟩

theorem buildMaps_lookup {ref : JsQ} {u : String} {ivs : List BusyInterval} :
    ∀ (merged : List (String × List BusyInterval)),
    (keysOf merged).Nodup → (u, ivs) ∈ merged →
    mapGet (buildMaps merged ref).1 u = ivs.foldl (scanBStep ref) none ∧
    mapGet (buildMaps merged ref).2 u = ivs.foldl (scanNStep ref) none := by
  suffices h : ∀ (merged : List (String × List BusyInterval))
      (maps : List (String × BusyUntilEntry) × List (String × NextBusyEntry)),
      (keysOf merged).Nodup → (u, ivs) ∈ merged →
      mapGet (merged.foldl
        (fun maps entry => entry.2.foldl (scanStep ref entry.1) maps) maps).1 u =
          ivs.foldl (scanBStep ref) (mapGet maps.1 u) ∧
      mapGet (merged.foldl
        (fun maps entry => entry.2.foldl (scanStep ref entry.1) maps) maps).2 u =
          ivs.foldl (scanNStep ref) (mapGet maps.2 u) by
    intro merged hnodup hmem
    exact h merged ([], []) hnodup hmem
  intro merged
  induction merged with
  | nil => intro maps _ hmem; simp at hmem
  | cons e rest ih =>
    intro maps hnodup hmem
    rw [keysOf_cons] at hnodup
    rcases List.mem_cons.mp hmem with heq | hmem'
    · have he1 : e.1 = u := by rw [← heq]
      have he2 : e.2 = ivs := by rw [← heq]
      have hurest : u ∉ keysOf rest := by
        rw [← he1]
        exact (List.nodup_cons.mp hnodup).1
      simp only [List.foldl_cons]
      rcases buildMapsAux_notMem rest (e.2.foldl (scanStep ref e.1) maps) hurest
        with ⟨h1, h2⟩
      rw [h1, h2, he1, innerFold_fst_self, innerFold_snd_self, he2]
      exact ⟨rfl, rfl⟩
    · have hne : u ≠ e.1 := by
        intro hh
        have : u ∈ keysOf rest := by
          have : u ∈ keysOf rest := List.mem_map.mpr ⟨(u, ivs), hmem', rfl⟩
          exact this
        rw [hh] at this
        exact (List.nodup_cons.mp hnodup).1 this
      have hu : u ∈ keysOf rest := List.mem_map.mpr ⟨(u, ivs), hmem', rfl⟩
      simp only [List.foldl_cons]
      rcases ih (e.2.foldl (scanStep ref e.1) maps) (List.nodup_cons.mp hnodup).2 hmem'
        with ⟨h1, h2⟩
      rw [h1, h2, innerFold_fst_ne hne, innerFold_snd_ne hne]
      exact ⟨rfl, rfl⟩

theorem mapGet_some_mem {α : Type} {m : List (String × α)} {k : String} {v : α}
    (h : mapGet m k = some v) : (k, v) ∈ m := by
  induction m with
  | nil => simp [mapGet] at h
  | cons hd tl ih =>
    unfold mapGet at h
    by_cases hk : hd.1 = k
    · rw [if_pos hk] at h
      have hv := Option.some.inj h
      have : (k, v) = hd := by
        rw [← hk, ← hv]
      rw [this]
      exact List.mem_cons_self _ _
    · rw [if_neg hk] at h
      exact List.mem_cons_of_mem _ (ih h)

/-! Characterization of the per-user scans. -/

theorem scanB_no_contains {ref : JsQ} :
    ∀ {ivs : List BusyInterval} (b : Option BusyUntilEntry),
    (∀ i ∈ ivs, ¬ containsRef ref i) →
    ivs.foldl (scanBStep ref) b = b := by
  intro ivs
  induction ivs with
  | nil => intro b _; rfl
  | cons i rest ih =>
    intro b h
    simp only [List.foldl_cons]
    have hstep : scanBStep ref b i = b := by
      unfold scanBStep
      rw [if_neg (show ¬ (i.startMinutes ≤ ref ∧ ref < i.endMinutes) from
        h i (List.mem_cons_self _ _))]
    rw [hstep]
    exact ih b (fun i' hi' => h i' (List.mem_cons_of_mem _ hi'))

theorem scanB_unique {ref : JsQ} :
    ∀ {ivs : List BusyInterval} {e : BusyInterval},
    ivs.Pairwise (fun a b => a.endMinutes < b.startMinutes) →
    e ∈ ivs → containsRef ref e →
    ivs.foldl (scanBStep ref) none =
      some ⟨formatTime e.end_time, e.endMinutes⟩ := by
  intro ivs
  induction ivs with
  | nil => intro e _ he _; simp at he
  | cons x rest ih =>
    intro e hpw he hc
    rcases List.pairwise_cons.mp hpw with ⟨hx, hrest⟩
    simp only [List.foldl_cons]
    rcases List.mem_cons.mp he with rfl | he'
    · have hstep : scanBStep ref (none : Option BusyUntilEntry) e =
          some ⟨formatTime e.end_time, e.endMinutes⟩ := by
        unfold scanBStep
        rw [if_pos (show e.startMinutes ≤ ref ∧ ref < e.endMinutes from hc)]
      rw [hstep]
      refine scanB_no_contains _ ?_
      intro i hi hci
      have hsep := hx i hi
      exact absurd hc.2 (not_lt_of_le (le_trans (le_of_lt hsep) hci.1))
    · have hstep : scanBStep ref (none : Option BusyUntilEntry) x = none := by
        unfold scanBStep
        rw [if_neg ?_]
        intro hcx
        have hsep := hx e he'
        exact absurd hcx.2 (not_lt_of_le (le_trans (le_of_lt hsep) hc.1))
      rw [hstep]
      exact ih hrest he' hc

theorem scanB_some_inv {ref : JsQ} :
    ∀ {ivs : List BusyInterval} {b r : Option BusyUntilEntry},
    ivs.foldl (scanBStep ref) b = r → r ≠ b →
    ∃ e ∈ ivs, containsRef ref e ∧
      r = some ⟨formatTime e.end_time, e.endMinutes⟩ := by
  intro ivs
  induction ivs with
  | nil =>
    intro b r h hne
    exact absurd h.symm hne
  | cons x rest ih =>
    intro b r h hne
    simp only [List.foldl_cons] at h
    by_cases hstep : scanBStep ref b x = b
    · rw [hstep] at h
      obtain ⟨e, he, hce, hre⟩ := ih h hne
      exact ⟨e, List.mem_cons_of_mem _ he, hce, hre⟩
    · have hcx : containsRef ref x ∧
          scanBStep ref b x = some ⟨formatTime x.end_time, x.endMinutes⟩ := by
        unfold scanBStep at hstep ⊢
        by_cases hc : x.startMinutes ≤ ref ∧ ref < x.endMinutes
        · rw [if_pos hc] at hstep ⊢
          rcases b with _ | existing
          · exact ⟨hc, rfl⟩
          · dsimp only at hstep ⊢
            by_cases hlt : existing.endMinutes < x.endMinutes
            · rw [if_pos hlt] at hstep ⊢
              exact ⟨hc, rfl⟩
            · rw [if_neg hlt] at hstep
              exact absurd rfl hstep
        · rw [if_neg hc] at hstep
          exact absurd rfl hstep
      by_cases hsame : rest.foldl (scanBStep ref) (scanBStep ref b x) =
          scanBStep ref b x
      · refine ⟨x, List.mem_cons_self _ _, hcx.1, ?_⟩
        rw [← h, hsame, hcx.2]
      · obtain ⟨e, he, hce, hre⟩ := ih h (fun hr => hsame (hr ▸ h))
        exact ⟨e, List.mem_cons_of_mem _ he, hce, hre⟩

theorem scanN_keep {ref : JsQ} :
    ∀ {ivs : List BusyInterval} {cur : NextBusyEntry},
    (∀ i ∈ ivs, ¬ i.startMinutes < cur.startMinutes) →
    ivs.foldl (scanNStep ref) (some cur) = some cur := by
  intro ivs
  induction ivs with
  | nil => intro cur _; rfl
  | cons i rest ih =>
    intro cur h
    simp only [List.foldl_cons]
    have hstep : scanNStep ref (some cur) i = some cur := by
      unfold scanNStep
      split
      · dsimp only
        rw [if_neg (h i (List.mem_cons_self _ _))]
      · rfl
    rw [hstep]
    exact ih (fun i' hi' => h i' (List.mem_cons_of_mem _ hi'))

theorem scanN_first {ref : JsQ} :
    ∀ {ivs : List BusyInterval},
    ivs.Pairwise (fun a b : BusyInterval => a.startMinutes < b.startMinutes) →
    ivs.foldl (scanNStep ref) none =
      (ivs.find? (fun i => decide (ref < i.startMinutes))).map
        (fun i => ⟨i.startMinutes, formatTime i.start_time⟩) := by
  intro ivs
  induction ivs with
  | nil => intro _; rfl
  | cons x rest ih =>
    intro hpw
    rcases List.pairwise_cons.mp hpw with ⟨hx, hrest⟩
    simp only [List.foldl_cons]
    by_cases hr : ref < x.startMinutes
    · have hstep : scanNStep ref (none : Option NextBusyEntry) x =
          some ⟨x.startMinutes, formatTime x.start_time⟩ := by
        unfold scanNStep
        rw [if_pos hr]
      rw [hstep, List.find?_cons_of_pos _ (by simpa using hr)]
      show List.foldl (scanNStep ref)
        (some ⟨x.startMinutes, formatTime x.start_time⟩) rest =
        some ⟨x.startMinutes, formatTime x.start_time⟩
      refine scanN_keep ?_
      intro i hi
      exact not_lt_of_le (le_of_lt (hx i hi))
    · have hstep : scanNStep ref (none : Option NextBusyEntry) x = none := by
        unfold scanNStep
        rw [if_neg hr]
      rw [hstep, List.find?_cons_of_neg _ (by simpa using hr)]
      exact ih hrest

/-! Lemmas about the member classification loop. -/

theorem classifyStep_append {up : List String}
    {bm : List (String × BusyUntilEntry)} {nm : List (String × NextBusyEntry)}
    (m : MemberRow) (acc : List FreeEntry × List BusyEntry × List UnknownEntry) :
    classifyStep up bm nm acc m =
      (acc.1 ++ (classifyStep up bm nm ([], [], []) m).1,
       acc.2.1 ++ (classifyStep up bm nm ([], [], []) m).2.1,
       acc.2.2 ++ (classifyStep up bm nm ([], [], []) m).2.2) := by
  unfold classifyStep
  dsimp only
  by_cases hup : up.contains m.user_id
  · simp only [hup, Bool.not_true, Bool.false_eq_true, if_false]
    rcases hbm : mapGet bm m.user_id with _ | be <;> simp
  · simp only [hup, Bool.not_false, if_true]
    simp

theorem classifyFold_acc {up : List String}
    {bm : List (String × BusyUntilEntry)} {nm : List (String × NextBusyEntry)} :
    ∀ (members : List MemberRow)
      (acc : List FreeEntry × List BusyEntry × List UnknownEntry),
    members.foldl (classifyStep up bm nm) acc =
      (acc.1 ++ (members.foldl (classifyStep up bm nm) ([], [], [])).1,
       acc.2.1 ++ (members.foldl (classifyStep up bm nm) ([], [], [])).2.1,
       acc.2.2 ++ (members.foldl (classifyStep up bm nm) ([], [], [])).2.2) := by
  intro members
  induction members with
  | nil => intro acc; simp
  | cons m ms ih =>
    intro acc
    simp only [List.foldl_cons]
    rw [classifyStep_append m acc, ih, ih (classifyStep up bm nm ([], [], []) m)]
    simp

theorem classifyMembers_cons {up : List String}
    {bm : List (String × BusyUntilEntry)} {nm : List (String × NextBusyEntry)}
    (m : MemberRow) (ms : List MemberRow) :
    classifyMembers (m :: ms) up bm nm =
      ((classifyStep up bm nm ([], [], []) m).1 ++ (classifyMembers ms up bm nm).1,
       (classifyStep up bm nm ([], [], []) m).2.1 ++ (classifyMembers ms up bm nm).2.1,
       (classifyStep up bm nm ([], [], []) m).2.2 ++ (classifyMembers ms up bm nm).2.2) := by
  unfold classifyMembers
  simp only [List.foldl_cons]
  exact classifyFold_acc ms _

theorem classifyStep_empty_unknown {up : List String} {bm nm} {m : MemberRow}
    (hup : up.contains m.user_id = false) :
    classifyStep up bm nm ([], [], []) m =
      ([], [], [UnknownEntry.mk m.user_id (memberName m)]) := by
  unfold classifyStep
  dsimp only
  rw [hup]
  rfl

theorem classifyStep_empty_busy {up : List String} {bm nm} {m : MemberRow}
    {be : BusyUntilEntry} (hup : up.contains m.user_id = true)
    (hbm : mapGet bm m.user_id = some be) :
    classifyStep up bm nm ([], [], []) m =
      ([], [BusyEntry.mk m.user_id (memberName m) be.busy_until], []) := by
  unfold classifyStep
  dsimp only
  rw [hup, hbm]
  rfl

theorem classifyStep_empty_free {up : List String} {bm nm} {m : MemberRow}
    (hup : up.contains m.user_id = true)
    (hbm : mapGet bm m.user_id = none) :
    classifyStep up bm nm ([], [], []) m =
      ([FreeEntry.mk m.user_id (memberName m)
          ((mapGet nm m.user_id).map (fun n => n.startLabel))], [], []) := by
  unfold classifyStep
  dsimp only
  rw [hup, hbm]
  rfl

theorem classifyMembers_busy_mem {up : List String} {bm nm} {m : MemberRow}
    {be : BusyUntilEntry} :
    ∀ {members : List MemberRow}, m ∈ members →
    up.contains m.user_id = true → mapGet bm m.user_id = some be →
    BusyEntry.mk m.user_id (memberName m) be.busy_until ∈
      (classifyMembers members up bm nm).2.1 := by
  intro members
  induction members with
  | nil => intro hm; simp at hm
  | cons m' ms ih =>
    intro hm hup hbm
    rw [classifyMembers_cons]
    dsimp only
    rw [List.mem_append]
    rcases List.mem_cons.mp hm with rfl | hm'
    · left
      rw [classifyStep_empty_busy hup hbm]
      exact List.mem_singleton.mpr rfl
    · right
      exact ih hm' hup hbm

theorem classifyMembers_free_mem {up : List String} {bm nm} {m : MemberRow} :
    ∀ {members : List MemberRow}, m ∈ members →
    up.contains m.user_id = true → mapGet bm m.user_id = none →
    FreeEntry.mk m.user_id (memberName m)
        ((mapGet nm m.user_id).map (fun n => n.startLabel)) ∈
      (classifyMembers members up bm nm).1 := by
  intro members
  induction members with
  | nil => intro hm; simp at hm
  | cons m' ms ih =>
    intro hm hup hbm
    rw [classifyMembers_cons]
    dsimp only
    rw [List.mem_append]
    rcases List.mem_cons.mp hm with rfl | hm'
    · left
      rw [classifyStep_empty_free hup hbm]
      exact List.mem_singleton.mpr rfl
    · right
      exact ih hm' hup hbm

theorem classifyMembers_unknown_mem {up : List String} {bm nm} {m : MemberRow} :
    ∀ {members : List MemberRow}, m ∈ members →
    up.contains m.user_id = false →
    UnknownEntry.mk m.user_id (memberName m) ∈
      (classifyMembers members up bm nm).2.2 := by
  intro members
  induction members with
  | nil => intro hm; simp at hm
  | cons m' ms ih =>
    intro hm hup
    rw [classifyMembers_cons]
    dsimp only
    rw [List.mem_append]
    rcases List.mem_cons.mp hm with rfl | hm'
    · left
      rw [classifyStep_empty_unknown hup]
      exact List.mem_singleton.mpr rfl
    · right
      exact ih hm' hup

theorem classifyMembers_busy_sound {up : List String} {bm nm} :
    ∀ (members : List MemberRow),
    ∀ be ∈ (classifyMembers members up bm nm).2.1,
    ∃ m ∈ members, be.user_id = m.user_id ∧ up.contains m.user_id = true ∧
      ∃ b0, mapGet bm m.user_id = some b0 ∧ be.busy_until = b0.busy_until := by
  intro members
  induction members with
  | nil => intro be hbe; simp [classifyMembers] at hbe
  | cons m ms ih =>
    intro be hbe
    rw [classifyMembers_cons] at hbe
    dsimp only at hbe
    rcases List.mem_append.mp hbe with h | h
    · by_cases hup : up.contains m.user_id
      · rcases hbm : mapGet bm m.user_id with _ | b0
        · rw [classifyStep_empty_free hup hbm] at h
          simp at h
        · rw [classifyStep_empty_busy hup hbm] at h
          rw [List.mem_singleton] at h
          subst h
          exact ⟨m, List.mem_cons_self _ _, rfl, hup, b0, hbm, rfl⟩
      · rw [classifyStep_empty_unknown (by simpa using hup)] at h
        simp at h
    · obtain ⟨m', hm', rest⟩ := ih be h
      exact ⟨m', List.mem_cons_of_mem _ hm', rest⟩

theorem classifyMembers_free_sound {up : List String} {bm nm} :
    ∀ (members : List MemberRow),
    ∀ fe ∈ (classifyMembers members up bm nm).1,
    ∃ m ∈ members, fe.user_id = m.user_id ∧ up.contains m.user_id = true ∧
      mapGet bm m.user_id = none ∧
      fe.free_until = (mapGet nm m.user_id).map (fun n => n.startLabel) := by
  intro members
  induction members with
  | nil => intro fe hfe; simp [classifyMembers] at hfe
  | cons m ms ih =>
    intro fe hfe
    rw [classifyMembers_cons] at hfe
    dsimp only at hfe
    rcases List.mem_append.mp hfe with h | h
    · by_cases hup : up.contains m.user_id
      · rcases hbm : mapGet bm m.user_id with _ | b0
        · rw [classifyStep_empty_free hup hbm] at h
          rw [List.mem_singleton] at h
          subst h
          exact ⟨m, List.mem_cons_self _ _, rfl, hup, hbm, rfl⟩
        · rw [classifyStep_empty_busy hup hbm] at h
          simp at h
      · rw [classifyStep_empty_unknown (by simpa using hup)] at h
        simp at h
    · obtain ⟨m', hm', rest⟩ := ih fe h
      exact ⟨m', List.mem_cons_of_mem _ hm', rest⟩

theorem mapGet_none_notMem {α : Type} {m : List (String × α)} {k : String}
    (h : mapGet m k = none) : k ∉ keysOf m := by
  induction m with
  | nil => simp [keysOf]
  | cons hd tl ih =>
    unfold mapGet at h
    by_cases hk : hd.1 = k
    · rw [if_pos hk] at h
      exact absurd h (by simp)
    · rw [if_neg hk] at h
      rw [keysOf_cons]
      simp only [List.mem_cons]
      push_neg
      exact ⟨fun hh => hk hh.symm, ih h⟩

theorem nodup_keysOf_mergeBusyIntervals (blocks : List BusyBlockRow) :
    (keysOf (mergeBusyIntervals blocks)).Nodup := by
  have h : keysOf (mergeBusyIntervals blocks) = keysOf (groupBlocks blocks) := by
    unfold mergeBusyIntervals keysOf
    rw [List.map_map]
    rfl
  rw [h]
  exact nodup_keysOf_groupBlocks

/-- The per-user merged interval list is pairwise separated, pairwise
strictly sorted by start, and has positive intervals. -/
theorem userIntervals_pairwise (blocks : List BusyBlockRow) (uid : String) :
    (userIntervals blocks uid).Pairwise
      (fun a b => a.endMinutes < b.startMinutes) ∧
    (userIntervals blocks uid).Pairwise
      (fun a b : BusyInterval => a.startMinutes < b.startMinutes) ∧
    ∀ i ∈ userIntervals blocks uid, i.startMinutes < i.endMinutes := by
  unfold userIntervals
  rcases hm : mapGet (mergeBusyIntervals blocks) uid with _ | ivs
  · simp
  · have hmem := mapGet_some_mem hm
    obtain ⟨hc1, hc2, hpos⟩ :=
      mergeBusyIntervals_sorted_disjoint blocks uid ivs hmem
    refine ⟨chainSep_pairwise hpos hc2, ?_, hpos⟩
    haveI : IsTrans BusyInterval
        (fun a b : BusyInterval => a.startMinutes < b.startMinutes) :=
      ⟨fun a b c hab hbc => lt_trans hab hbc⟩
    exact List.chain'_iff_pairwise.mp hc1

/-- The two lookup maps of the handler, read at a user, are exactly the
per-user scans over that user's merged intervals. -/
theorem userIntervals_lookup (blocks : List BusyBlockRow) (uid : String)
    (ref : JsQ) :
    mapGet (buildMaps (mergeBusyIntervals blocks) ref).1 uid =
      (userIntervals blocks uid).foldl (scanBStep ref) none ∧
    mapGet (buildMaps (mergeBusyIntervals blocks) ref).2 uid =
      (userIntervals blocks uid).foldl (scanNStep ref) none := by
  unfold userIntervals
  rcases hm : mapGet (mergeBusyIntervals blocks) uid with _ | ivs
  · have hnot : uid ∉ keysOf (mergeBusyIntervals blocks) := mapGet_none_notMem hm
    obtain ⟨h1, h2⟩ :=
      buildMapsAux_notMem (mergeBusyIntervals blocks) ([], []) hnot
    exact ⟨h1, h2⟩
  · have hmem := mapGet_some_mem hm
    exact buildMaps_lookup (mergeBusyIntervals blocks)
      (nodup_keysOf_mergeBusyIntervals blocks) hmem

/-- C2 counterexample on the label format: with the single merged block
`12:00-13:00` and reference time `12:30`, the uploaded member is classified
busy until "1:00PM" (uppercase meridiem), not "1:00pm" as the specification
formats it. -/
theorem classification_label_case_counterexample :
    (availabilityCore [⟨"u1", none⟩] ["u1"]
        [⟨"u1", "12:00:00", "13:00:00"⟩] 3 ⟨0, 1⟩
        (parseTimeParam (some "12:30"))).busy =
      [BusyEntry.mk "u1" "u1" "1:00PM"] ∧ "1:00PM" ≠ "1:00pm" := by
  constructor
  · decide
  · decide

/-- C2 (amended): for a member with an uploaded calendar, classification is
busy exactly when some merged interval contains the reference minute in
`[start, end)` — with `busy_until` that interval's end formatted by
`formatTime` (uppercase meridiem, e.g. `13:00:00` gives "1:00PM") — and free
otherwise, with `free_until` the formatted start of the earliest merged
interval starting strictly after the reference minute (`none` when there is
no such interval). -/
theorem availability_busy_free_classification
    (members : List MemberRow) (uploaded : List String)
    (storeBlocks : List BusyBlockRow) (nowWeekday : ℤ) (nowMinutes : JsQ)
    (parsedTime : Option TimeParamResult) (m : MemberRow)
    (hm : m ∈ members) (hup : uploaded.contains m.user_id = true) :
    (∀ e ∈ userIntervals (effectiveBlocks storeBlocks nowWeekday) m.user_id,
      containsRef (referenceOf parsedTime nowMinutes) e →
      BusyEntry.mk m.user_id (memberName m) (formatTime e.end_time) ∈
        (availabilityCore members uploaded storeBlocks nowWeekday nowMinutes
          parsedTime).busy) ∧
    ((∀ e ∈ userIntervals (effectiveBlocks storeBlocks nowWeekday) m.user_id,
        ¬ containsRef (referenceOf parsedTime nowMinutes) e) →
      FreeEntry.mk m.user_id (memberName m)
          (((userIntervals (effectiveBlocks storeBlocks nowWeekday)
              m.user_id).find?
            (fun e => decide (referenceOf parsedTime nowMinutes <
              e.startMinutes))).map
            (fun e => formatTime e.start_time)) ∈
        (availabilityCore members uploaded storeBlocks nowWeekday nowMinutes
          parsedTime).free) ∧
    (∀ be ∈ (availabilityCore members uploaded storeBlocks nowWeekday
        nowMinutes parsedTime).busy, be.user_id = m.user_id →
      ∃ e ∈ userIntervals (effectiveBlocks storeBlocks nowWeekday) m.user_id,
        containsRef (referenceOf parsedTime nowMinutes) e ∧
        be.busy_until = formatTime e.end_time) ∧
    (∀ fe ∈ (availabilityCore members uploaded storeBlocks nowWeekday
        nowMinutes parsedTime).free, fe.user_id = m.user_id →
      ∀ e ∈ userIntervals (effectiveBlocks storeBlocks nowWeekday) m.user_id,
        ¬ containsRef (referenceOf parsedTime nowMinutes) e) := by
  set blocks := effectiveBlocks storeBlocks nowWeekday with hblocks
  set ref := referenceOf parsedTime nowMinutes with href
  have hresp_busy : (availabilityCore members uploaded storeBlocks nowWeekday
      nowMinutes parsedTime).busy =
      (classifyMembers members uploaded
        (buildMaps (mergeBusyIntervals blocks) ref).1
        (buildMaps (mergeBusyIntervals blocks) ref).2).2.1 := rfl
  have hresp_free : (availabilityCore members uploaded storeBlocks nowWeekday
      nowMinutes parsedTime).free =
      (classifyMembers members uploaded
        (buildMaps (mergeBusyIntervals blocks) ref).1
        (buildMaps (mergeBusyIntervals blocks) ref).2).1 := rfl
  obtain ⟨hlookB, hlookN⟩ := userIntervals_lookup blocks m.user_id ref
  obtain ⟨hpwSep, hpwStart, hpos⟩ := userIntervals_pairwise blocks m.user_id
  refine ⟨?_, ?_, ?_, ?_⟩
  · intro e he hce
    have hbm : mapGet (buildMaps (mergeBusyIntervals blocks) ref).1 m.user_id =
        some ⟨formatTime e.end_time, e.endMinutes⟩ := by
      rw [hlookB]
      exact scanB_unique hpwSep he hce
    rw [hresp_busy]
    exact classifyMembers_busy_mem hm hup hbm
  · intro hnone
    have hbm : mapGet (buildMaps (mergeBusyIntervals blocks) ref).1 m.user_id =
        none := by
      rw [hlookB]
      exact scanB_no_contains none hnone
    have hnm : mapGet (buildMaps (mergeBusyIntervals blocks) ref).2 m.user_id =
        ((userIntervals blocks m.user_id).find?
            (fun e => decide (ref < e.startMinutes))).map
          (fun i => NextBusyEntry.mk i.startMinutes (formatTime i.start_time)) := by
      rw [hlookN]
      exact scanN_first hpwStart
    rw [hresp_free]
    have hmem := @classifyMembers_free_mem uploaded
      (buildMaps (mergeBusyIntervals blocks) ref).1
      (buildMaps (mergeBusyIntervals blocks) ref).2 m members hm hup hbm
    rw [hnm] at hmem
    have hXY : (((userIntervals blocks m.user_id).find?
          (fun e => decide (ref < e.startMinutes))).map
          (fun i => NextBusyEntry.mk i.startMinutes
            (formatTime i.start_time))).map (fun n => n.startLabel) =
        ((userIntervals blocks m.user_id).find?
          (fun e => decide (ref < e.startMinutes))).map
          (fun e => formatTime e.start_time) := by
      rw [Option.map_map]
      rfl
    rw [← hXY]
    exact hmem
  · intro be hbe hbeu
    rw [hresp_busy] at hbe
    obtain ⟨m', hm', hueq, hup', b0, hbm', hbu⟩ :=
      classifyMembers_busy_sound members be hbe
    have huu : m'.user_id = m.user_id := by rw [← hueq, hbeu]
    rw [huu, hlookB] at hbm'
    have hne : (some b0 : Option BusyUntilEntry) ≠ none := by simp
    obtain ⟨e, he, hce, hre⟩ := scanB_some_inv hbm' hne
    refine ⟨e, he, hce, ?_⟩
    have hb0 := Option.some.inj hre
    rw [hbu, hb0]
  · intro fe hfe hfeu e he hce
    rw [hresp_free] at hfe
    obtain ⟨m', hm', hueq, hup', hbm', hfu⟩ :=
      classifyMembers_free_sound members fe hfe
    have huu : m'.user_id = m.user_id := by rw [← hueq, hfeu]
    rw [huu, hlookB] at hbm'
    rw [scanB_unique hpwSep he hce] at hbm'
    exact absurd hbm' (by simp)

/-- C2 witness: member "u1" with merged block 12:00-13:00 queried at 12:30 is
reported busy until the block's formatted end. -/
theorem availability_busy_free_classification_witness :
    BusyEntry.mk "u1" "u1" (formatTime "13:00:00") ∈
      (availabilityCore [⟨"u1", none⟩] ["u1"]
        [⟨"u1", "12:00:00", "13:00:00"⟩] 3 ⟨0, 1⟩
        (parseTimeParam (some "12:30"))).busy := by
  have h := (availability_busy_free_classification
    [⟨"u1", none⟩] ["u1"] [⟨"u1", "12:00:00", "13:00:00"⟩] 3 ⟨0, 1⟩
    (parseTimeParam (some "12:30")) ⟨"u1", none⟩ (by decide) (by decide)).1
  exact h ⟨timeToMinutes "12:00:00", timeToMinutes "13:00:00",
    "12:00:00", "13:00:00"⟩ (by decide) ⟨by decide, by decide⟩

/-- C7: a group member whose `user_id` is not in the uploaded-calendar set is
always classified `unknown`, and no `busy` or `free` entry ever carries that
member's `user_id`, regardless of the busy blocks present. -/
theorem classification_unknown_without_upload
    (members : List MemberRow) (uploaded : List String)
    (storeBlocks : List BusyBlockRow) (nowWeekday : ℤ) (nowMinutes : JsQ)
    (parsedTime : Option TimeParamResult) (m : MemberRow)
    (hm : m ∈ members) (hup : uploaded.contains m.user_id = false) :
    UnknownEntry.mk m.user_id (memberName m) ∈
      (availabilityCore members uploaded storeBlocks nowWeekday nowMinutes
        parsedTime).unknown ∧
    (∀ be ∈ (availabilityCore members uploaded storeBlocks nowWeekday
        nowMinutes parsedTime).busy, be.user_id ≠ m.user_id) ∧
    (∀ fe ∈ (availabilityCore members uploaded storeBlocks nowWeekday
        nowMinutes parsedTime).free, fe.user_id ≠ m.user_id) := by
  refine ⟨classifyMembers_unknown_mem hm hup, ?_, ?_⟩
  · intro be hbe hbeu
    obtain ⟨m', hm', hueq, hup', -⟩ := classifyMembers_busy_sound members be hbe
    have : m'.user_id = m.user_id := by rw [← hueq, hbeu]
    rw [this] at hup'
    rw [hup'] at hup
    exact Bool.noConfusion hup
  · intro fe hfe hfeu
    obtain ⟨m', hm', hueq, hup', -⟩ := classifyMembers_free_sound members fe hfe
    have : m'.user_id = m.user_id := by rw [← hueq, hfeu]
    rw [this] at hup'
    rw [hup'] at hup
    exact Bool.noConfusion hup

/-- C7 witness: member "u1" has a busy block covering the reference minute
but no uploaded calendar, and is reported `unknown`. -/
theorem classification_unknown_without_upload_witness :
    UnknownEntry.mk "u1" "u1" ∈
      (availabilityCore [⟨"u1", none⟩] []
        [⟨"u1", "09:00:00", "10:00:00"⟩] 2 ⟨570, 1⟩ none).unknown :=
  (classification_unknown_without_upload [⟨"u1", none⟩] []
    [⟨"u1", "09:00:00", "10:00:00"⟩] 2 ⟨570, 1⟩ none ⟨"u1", none⟩
    (by decide) (by decide)).1

/-- C8: on a weekend weekday (6 = Saturday or 7 = Sunday) the handler's
result is the same as with no busy blocks at all (the busy-block query is
skipped), and every member with an uploaded calendar is reported free with
`free_until = none`. -/
theorem weekend_no_blocks_all_free
    (members : List MemberRow) (uploaded : List String)
    (storeBlocks : List BusyBlockRow) (nowWeekday : ℤ) (nowMinutes : JsQ)
    (parsedTime : Option TimeParamResult)
    (hw : nowWeekday = 6 ∨ nowWeekday = 7) :
    availabilityCore members uploaded storeBlocks nowWeekday nowMinutes
        parsedTime =
      availabilityCore members uploaded [] nowWeekday nowMinutes parsedTime ∧
    ∀ m ∈ members, uploaded.contains m.user_id = true →
      FreeEntry.mk m.user_id (memberName m) none ∈
        (availabilityCore members uploaded storeBlocks nowWeekday nowMinutes
          parsedTime).free := by
  have heff : effectiveBlocks storeBlocks nowWeekday = [] := by
    unfold effectiveBlocks
    rcases hw with rfl | rfl
    · rw [if_neg (by decide)]
    · rw [if_neg (by decide)]
  have heff2 : effectiveBlocks storeBlocks nowWeekday =
      effectiveBlocks [] nowWeekday := by
    rw [heff]
    unfold effectiveBlocks
    rcases hw with rfl | rfl
    · rw [if_neg (by decide)]
    · rw [if_neg (by decide)]
  constructor
  · unfold availabilityCore
    rw [heff2]
  · intro m hm hup
    have hfree : (availabilityCore members uploaded storeBlocks nowWeekday
        nowMinutes parsedTime).free =
        (classifyMembers members uploaded
          (buildMaps (mergeBusyIntervals
            (effectiveBlocks storeBlocks nowWeekday))
            (referenceOf parsedTime nowMinutes)).1
          (buildMaps (mergeBusyIntervals
            (effectiveBlocks storeBlocks nowWeekday))
            (referenceOf parsedTime nowMinutes)).2).1 := rfl
    rw [hfree, heff]
    exact classifyMembers_free_mem hm hup rfl

/-- C8 witness: on Saturday the stored block is ignored, the result matches
the no-blocks run, and the calendar-uploading member "u1" is free with no
`free_until`. -/
theorem weekend_no_blocks_all_free_witness :
    (availabilityCore [⟨"u1", none⟩] ["u1"]
        [⟨"u1", "09:00:00", "10:00:00"⟩] 6 ⟨570, 1⟩ none =
      availabilityCore [⟨"u1", none⟩] ["u1"] [] 6 ⟨570, 1⟩ none) ∧
    FreeEntry.mk "u1" "u1" none ∈
      (availabilityCore [⟨"u1", none⟩] ["u1"]
        [⟨"u1", "09:00:00", "10:00:00"⟩] 6 ⟨570, 1⟩ none).free := by
  have h := weekend_no_blocks_all_free [⟨"u1", none⟩] ["u1"]
    [⟨"u1", "09:00:00", "10:00:00"⟩] 6 ⟨570, 1⟩ none (Or.inl rfl)
  exact ⟨h.1, h.2 ⟨"u1", none⟩ (by decide) (by decide)⟩
